import Mathlib

/-!
Verification of the text-formatting core of the n8n-pdf-parse node
(`src/nodes/PdfParse/PdfParse.node.ts`).

The source implements `formatText(text, formatting)` as a switch over six
formatting modes, each a pipeline of JavaScript `String.prototype.replace`
calls with (mostly global) regular expressions, plus the page splitter
`extractedText.split(/\f/).filter(p => p.trim().length > 0)` from
`PdfParse.execute`.

We embed the relevant fragment of JavaScript regular expressions
(character classes, `{n,m}` quantifiers, capture groups, alternation,
`^`/`$` anchors with and without the `m` flag, greedy backtracking,
leftmost global replacement with `$1`/`$&` templates) and transcribe each
mode's rule list literally from the source.
-/

set_option maxHeartbeats 1000000

namespace PdfParse

/-- JavaScript whitespace: the characters matched by the regex class `\s`
(which coincides with the character set removed by `String.prototype.trim`). -/
def jsSpace (c : Char) : Bool :=
  decide (c.toNat = 9) || decide (c.toNat = 10) || decide (c.toNat = 11) ||
  decide (c.toNat = 12) || decide (c.toNat = 13) || decide (c.toNat = 32) ||
  decide (c.toNat = 160) || decide (c.toNat = 0x1680) ||
  (decide (0x2000 ≤ c.toNat) && decide (c.toNat ≤ 0x200a)) ||
  decide (c.toNat = 0x2028) || decide (c.toNat = 0x2029) ||
  decide (c.toNat = 0x202f) || decide (c.toNat = 0x205f) ||
  decide (c.toNat = 0x3000) || decide (c.toNat = 0xfeff)

/-- JavaScript line terminators, the characters around which the multiline
anchors `^` and `$` match. -/
def isLineTerm (c : Char) : Bool :=
  decide (c.toNat = 10) || decide (c.toNat = 13) ||
  decide (c.toNat = 0x2028) || decide (c.toNat = 0x2029)

/-- The regex class `\d`. -/
def isDigitC (c : Char) : Bool :=
  decide ('0'.toNat ≤ c.toNat) && decide (c.toNat ≤ '9'.toNat)

/-- The regex class `\w`. -/
def isWordC (c : Char) : Bool :=
  (decide ('a'.toNat ≤ c.toNat) && decide (c.toNat ≤ 'z'.toNat)) ||
  (decide ('A'.toNat ≤ c.toNat) && decide (c.toNat ≤ 'Z'.toNat)) ||
  isDigitC c || decide (c = '_')

/-- One item of a bracket character class: a literal character, a
character range, or one of the shorthand classes `\s`, `\d`, `\w`. -/
inductive CItem where
  | ch (c : Char)
  | range (lo hi : Char)
  | sp
  | dg
  | wd
  deriving DecidableEq, Repr

/-- Whether a single class item matches a character. -/
def citemMatch : CItem → Char → Bool
  | .ch a, c => decide (a = c)
  | .range lo hi, c => decide (lo.toNat ≤ c.toNat) && decide (c.toNat ≤ hi.toNat)
  | .sp, c => jsSpace c
  | .dg, c => isDigitC c
  | .wd, c => isWordC c

/-- Whether a (possibly negated) character class matches a character. -/
def clsMatch (neg : Bool) (items : List CItem) (c : Char) : Bool :=
  let m := items.any fun it => citemMatch it c
  if neg then !m else m

/-- Abstract syntax of the regular-expression fragment used by the source:
character classes, sequencing, alternation, greedy counted repetition,
capture groups and the `^`/`$` anchors. -/
inductive Regex where
  | eps
  | cls (neg : Bool) (items : List CItem)
  | bol
  | eol
  | seq (a b : Regex)
  | alt (a b : Regex)
  | rep (r : Regex) (lo : Nat) (hi : Option Nat)
  | grp (n : Nat) (r : Regex)
  deriving Repr

/-- Capture list: entries `(index, start, end)` in absolute input positions. -/
abbrev Caps := List (Nat × Nat × Nat)

/-- The character immediately before the position reached after consuming
`n` characters of `rem` (used to evaluate the multiline `^` anchor). -/
def stepPrev (prev : Option Char) (rem : List Char) (n : Nat) : Option Char :=
  if n = 0 then prev
  else
    match (rem.take n).getLast? with
    | some c => some c
    | none => prev

/-- Recursion-depth bound for the matcher: the size of a regex, with the
counters of a repetition not contributing (they shrink during matching). -/
def rsize : Regex → Nat
  | .eps => 1
  | .cls _ _ => 1
  | .bol => 1
  | .eol => 1
  | .seq a b => 1 + rsize a + rsize b
  | .alt a b => 1 + rsize a + rsize b
  | .rep r _ _ => 1 + rsize r
  | .grp _ r => 1 + rsize r

/-- All ways the regex can match a prefix of `rem`, as pairs
`(consumed length, captures)`, in the preference order of a JavaScript
backtracking engine: alternation tries the left branch first and
repetition is greedy (more iterations first).  `pos` is the absolute
position of `rem` in the subject, `prev` the character just before it,
`ml` the multiline flag.  Iterations of a repetition are required to
consume at least one character; every repetition body in the source is a
single character class, so an iteration always consumes exactly one
character, as in JavaScript.  The `fuel` argument makes the recursion
structural; `mall` below supplies enough fuel that it never runs out
(`mallF_stable`). -/
def mallF (ml : Bool) : Nat → Regex → Nat → Option Char → List Char → List (Nat × Caps)
  | 0, _, _, _, _ => []
  | _ + 1, .eps, _, _, _ => [(0, [])]
  | _ + 1, .cls neg items, _, _, rem =>
    match rem with
    | [] => []
    | c :: _ => if clsMatch neg items c then [(1, [])] else []
  | _ + 1, .bol, pos, prev, _ =>
    if pos = 0 then [(0, [])]
    else if ml then
      match prev with
      | some c => if isLineTerm c then [(0, [])] else []
      | none => []
    else []
  | _ + 1, .eol, _, _, rem =>
    match rem with
    | [] => [(0, [])]
    | c :: _ => if ml && isLineTerm c then [(0, [])] else []
  | fuel + 1, .seq a b, pos, prev, rem =>
    (mallF ml fuel a pos prev rem).flatMap fun p =>
      (mallF ml fuel b (pos + p.1) (stepPrev prev rem p.1) (rem.drop p.1)).map fun q =>
        (p.1 + q.1, p.2 ++ q.2)
  | fuel + 1, .alt a b, pos, prev, rem =>
    mallF ml fuel a pos prev rem ++ mallF ml fuel b pos prev rem
  | fuel + 1, .grp i r', pos, prev, rem =>
    (mallF ml fuel r' pos prev rem).map fun p => (p.1, (i, pos, pos + p.1) :: p.2)
  | fuel + 1, .rep r' lo hi, pos, prev, rem =>
    if hi = some 0 then [(0, [])]
    else
      let body := (mallF ml fuel r' pos prev rem).filter fun p =>
        decide (0 < p.1 ∧ p.1 ≤ rem.length)
      let iters := body.flatMap fun p =>
        (mallF ml fuel (.rep r' (lo - 1) (hi.map fun h => h - 1)) (pos + p.1)
            (stepPrev prev rem p.1) (rem.drop p.1)).map fun q =>
          (p.1 + q.1, p.2 ++ q.2)
      if lo = 0 then iters ++ [(0, [])] else iters

/-- Fuel that suffices for `mallF` on this regex and input. -/
def mallFuel (r : Regex) (rem : List Char) : Nat :=
  (rem.length + 1) * (rsize r + 1)

/-- The matcher with its canonical fuel. -/
def mall (ml : Bool) (r : Regex) (pos : Nat) (prev : Option Char) (rem : List Char) :
    List (Nat × Caps) :=
  mallF ml (mallFuel r rem) r pos prev rem

theorem flatMap_congr_mem {α β : Type} {l : List α} {f g : α → List β}
    (h : ∀ a ∈ l, f a = g a) : l.flatMap f = l.flatMap g := by
  induction l with
  | nil => rfl
  | cons x xs ih =>
    simp only [List.flatMap_cons]
    rw [h x (by simp), ih fun a ha => h a (by simp [ha])]

theorem rsize_pos (r : Regex) : 0 < rsize r := by
  cases r <;> simp [rsize]

/-- `mallF` is independent of the fuel once the fuel is at least
`mallFuel`: the recursion never exhausts its fuel. -/
theorem mallF_stable (ml : Bool) :
    ∀ (f1 : Nat) (r : Regex) (f2 pos : Nat) (prev : Option Char) (rem : List Char),
      mallFuel r rem ≤ f1 → mallFuel r rem ≤ f2 →
      mallF ml f1 r pos prev rem = mallF ml f2 r pos prev rem := by
  intro f1
  induction f1 using Nat.strong_induction_on with
  | _ f1 ih =>
    intro r f2 pos prev rem h1 h2
    have hμ : 1 ≤ mallFuel r rem := by
      have := rsize_pos r
      unfold mallFuel
      nlinarith
    match f1, h1 with
    | g1 + 1, h1 =>
    match f2, h2 with
    | g2 + 1, h2 =>
    have hg1 : g1 < g1 + 1 := Nat.lt_succ_self g1
    cases r with
    | eps => rfl
    | cls neg items => rfl
    | bol => rfl
    | eol => rfl
    | seq a b =>
      have hsa : rsize a + 1 ≤ rsize (Regex.seq a b) := by simp [rsize]; omega
      have hsb : rsize b + 1 ≤ rsize (Regex.seq a b) := by simp [rsize]; omega
      have hab : mallFuel a rem ≤ g1 := by
        unfold mallFuel at h1 ⊢
        nlinarith [rem.length]
      have hab2 : mallFuel a rem ≤ g2 := by
        unfold mallFuel at h2 ⊢
        nlinarith [rem.length]
      show (mallF ml g1 a pos prev rem).flatMap _ = (mallF ml g2 a pos prev rem).flatMap _
      rw [ih g1 hg1 a g2 pos prev rem hab hab2]
      refine flatMap_congr_mem fun p _ => ?_
      have hd : (rem.drop p.1).length ≤ rem.length := by simp
      have hb1 : mallFuel b (rem.drop p.1) ≤ g1 := by
        unfold mallFuel at h1 ⊢
        nlinarith
      have hb2 : mallFuel b (rem.drop p.1) ≤ g2 := by
        unfold mallFuel at h2 ⊢
        nlinarith
      rw [ih g1 hg1 b g2 _ _ _ hb1 hb2]
    | alt a b =>
      have ha1 : mallFuel a rem ≤ g1 := by
        unfold mallFuel at h1 ⊢
        have : rsize a + 1 ≤ rsize (Regex.alt a b) := by simp [rsize]; omega
        nlinarith
      have ha2 : mallFuel a rem ≤ g2 := by
        unfold mallFuel at h2 ⊢
        have : rsize a + 1 ≤ rsize (Regex.alt a b) := by simp [rsize]; omega
        nlinarith
      have hb1 : mallFuel b rem ≤ g1 := by
        unfold mallFuel at h1 ⊢
        have : rsize b + 1 ≤ rsize (Regex.alt a b) := by simp [rsize]; omega
        nlinarith
      have hb2 : mallFuel b rem ≤ g2 := by
        unfold mallFuel at h2 ⊢
        have : rsize b + 1 ≤ rsize (Regex.alt a b) := by simp [rsize]; omega
        nlinarith
      show mallF ml g1 a pos prev rem ++ mallF ml g1 b pos prev rem
          = mallF ml g2 a pos prev rem ++ mallF ml g2 b pos prev rem
      rw [ih g1 hg1 a g2 pos prev rem ha1 ha2, ih g1 hg1 b g2 pos prev rem hb1 hb2]
    | grp i r' =>
      have hr1 : mallFuel r' rem ≤ g1 := by
        unfold mallFuel at h1 ⊢
        have : rsize r' + 1 ≤ rsize (Regex.grp i r') := by simp [rsize]; omega
        nlinarith
      have hr2 : mallFuel r' rem ≤ g2 := by
        unfold mallFuel at h2 ⊢
        have : rsize r' + 1 ≤ rsize (Regex.grp i r') := by simp [rsize]; omega
        nlinarith
      show (mallF ml g1 r' pos prev rem).map _ = (mallF ml g2 r' pos prev rem).map _
      rw [ih g1 hg1 r' g2 pos prev rem hr1 hr2]
    | rep r' lo hi =>
      show mallF ml (g1 + 1) (.rep r' lo hi) pos prev rem
          = mallF ml (g2 + 1) (.rep r' lo hi) pos prev rem
      rw [mallF, mallF]
      by_cases hhi : hi = some 0
      · simp [hhi]
      · simp only [if_neg hhi]
        have hr1 : mallFuel r' rem ≤ g1 := by
          unfold mallFuel at h1 ⊢
          have : rsize r' + 1 ≤ rsize (Regex.rep r' lo hi) := by simp [rsize]; omega
          nlinarith
        have hr2 : mallFuel r' rem ≤ g2 := by
          unfold mallFuel at h2 ⊢
          have : rsize r' + 1 ≤ rsize (Regex.rep r' lo hi) := by simp [rsize]; omega
          nlinarith
        rw [ih g1 hg1 r' g2 pos prev rem hr1 hr2]
        have hbody : ∀ p ∈ (mallF ml g2 r' pos prev rem).filter fun p =>
            decide (0 < p.1 ∧ p.1 ≤ rem.length),
            (mallF ml g1 (.rep r' (lo - 1) (hi.map fun h => h - 1)) (pos + p.1)
              (stepPrev prev rem p.1) (rem.drop p.1)).map
                (fun q => (p.1 + q.1, p.2 ++ q.2))
            = (mallF ml g2 (.rep r' (lo - 1) (hi.map fun h => h - 1)) (pos + p.1)
              (stepPrev prev rem p.1) (rem.drop p.1)).map
                (fun q => (p.1 + q.1, p.2 ++ q.2)) := by
          intro p hp
          rw [List.mem_filter] at hp
          have hpp := of_decide_eq_true hp.2
          have hlen : (rem.drop p.1).length + 1 ≤ rem.length := by
            have := List.length_drop p.1 rem
            omega
          have hsz : rsize (Regex.rep r' (lo - 1) (hi.map fun h => h - 1))
              = rsize (Regex.rep r' lo hi) := by simp [rsize]
          have hf1 : mallFuel (Regex.rep r' (lo - 1) (hi.map fun h => h - 1))
              (rem.drop p.1) ≤ g1 := by
            unfold mallFuel at h1 ⊢
            rw [hsz]
            nlinarith [rsize_pos (Regex.rep r' lo hi)]
          have hf2 : mallFuel (Regex.rep r' (lo - 1) (hi.map fun h => h - 1))
              (rem.drop p.1) ≤ g2 := by
            unfold mallFuel at h2 ⊢
            rw [hsz]
            nlinarith [rsize_pos (Regex.rep r' lo hi)]
          rw [ih g1 hg1 _ g2 _ _ _ hf1 hf2]
        rw [flatMap_congr_mem hbody]

theorem mallFuel_pos (r : Regex) (rem : List Char) : 0 < mallFuel r rem :=
  Nat.mul_pos (Nat.succ_pos _) (Nat.succ_pos _)

/-- Replace an ample explicit fuel by the canonical one. -/
theorem mallF_eq_mall {ml : Bool} {r : Regex} {fuel pos : Nat} {prev : Option Char}
    {rem : List Char} (h : mallFuel r rem ≤ fuel) :
    mallF ml fuel r pos prev rem = mall ml r pos prev rem :=
  mallF_stable ml fuel r (mallFuel r rem) pos prev rem h (le_refl _)

/- Fuel-free unfolding equations for `mall`. -/

theorem mall_eps (ml : Bool) (pos : Nat) (prev : Option Char) (rem : List Char) :
    mall ml .eps pos prev rem = [(0, [])] := by
  obtain ⟨k, hk⟩ := Nat.exists_eq_succ_of_ne_zero (Nat.pos_iff_ne_zero.mp (mallFuel_pos .eps rem))
  rw [mall, hk]; simp only [mallF]

theorem mall_cls (ml : Bool) (neg : Bool) (items : List CItem) (pos : Nat)
    (prev : Option Char) (rem : List Char) :
    mall ml (.cls neg items) pos prev rem =
      match rem with
      | [] => []
      | c :: _ => if clsMatch neg items c then [(1, [])] else [] := by
  obtain ⟨k, hk⟩ := Nat.exists_eq_succ_of_ne_zero
    (Nat.pos_iff_ne_zero.mp (mallFuel_pos (.cls neg items) rem))
  rw [mall, hk]; simp only [mallF]

theorem mall_bol (ml : Bool) (pos : Nat) (prev : Option Char) (rem : List Char) :
    mall ml .bol pos prev rem =
      if pos = 0 then [(0, [])]
      else if ml then
        match prev with
        | some c => if isLineTerm c then [(0, [])] else []
        | none => []
      else [] := by
  obtain ⟨k, hk⟩ := Nat.exists_eq_succ_of_ne_zero (Nat.pos_iff_ne_zero.mp (mallFuel_pos .bol rem))
  rw [mall, hk]; simp only [mallF]

theorem mall_eol (ml : Bool) (pos : Nat) (prev : Option Char) (rem : List Char) :
    mall ml .eol pos prev rem =
      match rem with
      | [] => [(0, [])]
      | c :: _ => if ml && isLineTerm c then [(0, [])] else [] := by
  obtain ⟨k, hk⟩ := Nat.exists_eq_succ_of_ne_zero (Nat.pos_iff_ne_zero.mp (mallFuel_pos .eol rem))
  rw [mall, hk]; simp only [mallF]

theorem mall_seq (ml : Bool) (a b : Regex) (pos : Nat) (prev : Option Char)
    (rem : List Char) :
    mall ml (.seq a b) pos prev rem =
      (mall ml a pos prev rem).flatMap fun p =>
        (mall ml b (pos + p.1) (stepPrev prev rem p.1) (rem.drop p.1)).map fun q =>
          (p.1 + q.1, p.2 ++ q.2) := by
  obtain ⟨k, hk⟩ := Nat.exists_eq_succ_of_ne_zero
    (Nat.pos_iff_ne_zero.mp (mallFuel_pos (.seq a b) rem))
  have hk2 : (rem.length + 1) * (1 + rsize a + rsize b + 1) = k + 1 := hk
  rw [mall, hk]; simp only [mallF]
  have ha : mallFuel a rem ≤ k := by
    unfold mallFuel
    nlinarith [rsize_pos b, rem.length.zero_le]
  rw [mallF_eq_mall ha]
  refine flatMap_congr_mem fun p _ => ?_
  have hd : (rem.drop p.1).length ≤ rem.length := by simp
  have hb : mallFuel b (rem.drop p.1) ≤ k := by
    unfold mallFuel
    nlinarith [rsize_pos a, rem.length.zero_le]
  rw [mallF_eq_mall hb]

theorem mall_alt (ml : Bool) (a b : Regex) (pos : Nat) (prev : Option Char)
    (rem : List Char) :
    mall ml (.alt a b) pos prev rem =
      mall ml a pos prev rem ++ mall ml b pos prev rem := by
  obtain ⟨k, hk⟩ := Nat.exists_eq_succ_of_ne_zero
    (Nat.pos_iff_ne_zero.mp (mallFuel_pos (.alt a b) rem))
  have hk2 : (rem.length + 1) * (1 + rsize a + rsize b + 1) = k + 1 := hk
  rw [mall, hk]; simp only [mallF]
  have ha : mallFuel a rem ≤ k := by
    unfold mallFuel
    nlinarith [rsize_pos b, rem.length.zero_le]
  have hb : mallFuel b rem ≤ k := by
    unfold mallFuel
    nlinarith [rsize_pos a, rem.length.zero_le]
  rw [mallF_eq_mall ha, mallF_eq_mall hb]

theorem mall_grp (ml : Bool) (i : Nat) (r : Regex) (pos : Nat) (prev : Option Char)
    (rem : List Char) :
    mall ml (.grp i r) pos prev rem =
      (mall ml r pos prev rem).map fun p => (p.1, (i, pos, pos + p.1) :: p.2) := by
  obtain ⟨k, hk⟩ := Nat.exists_eq_succ_of_ne_zero
    (Nat.pos_iff_ne_zero.mp (mallFuel_pos (.grp i r) rem))
  have hk2 : (rem.length + 1) * (1 + rsize r + 1) = k + 1 := hk
  rw [mall, hk]; simp only [mallF]
  have hr : mallFuel r rem ≤ k := by
    unfold mallFuel
    nlinarith [rem.length.zero_le]
  rw [mallF_eq_mall hr]

theorem mall_rep (ml : Bool) (r : Regex) (lo : Nat) (hi : Option Nat) (pos : Nat)
    (prev : Option Char) (rem : List Char) :
    mall ml (.rep r lo hi) pos prev rem =
      if hi = some 0 then [(0, [])]
      else
        let body := (mall ml r pos prev rem).filter fun p =>
          decide (0 < p.1 ∧ p.1 ≤ rem.length)
        let iters := body.flatMap fun p =>
          (mall ml (.rep r (lo - 1) (hi.map fun h => h - 1)) (pos + p.1)
              (stepPrev prev rem p.1) (rem.drop p.1)).map fun q =>
            (p.1 + q.1, p.2 ++ q.2)
        if lo = 0 then iters ++ [(0, [])] else iters := by
  obtain ⟨k, hk⟩ := Nat.exists_eq_succ_of_ne_zero
    (Nat.pos_iff_ne_zero.mp (mallFuel_pos (.rep r lo hi) rem))
  have hk2 : (rem.length + 1) * (1 + rsize r + 1) = k + 1 := hk
  rw [mall, hk]; simp only [mallF]
  by_cases hhi : hi = some 0
  · simp [hhi]
  · simp only [if_neg hhi]
    have hr : mallFuel r rem ≤ k := by
      unfold mallFuel
      nlinarith [rem.length.zero_le]
    rw [mallF_eq_mall hr]
    have hbody : ∀ p ∈ (mall ml r pos prev rem).filter fun p =>
        decide (0 < p.1 ∧ p.1 ≤ rem.length),
        (mallF ml k (.rep r (lo - 1) (hi.map fun h => h - 1)) (pos + p.1)
          (stepPrev prev rem p.1) (rem.drop p.1)).map
            (fun q => (p.1 + q.1, p.2 ++ q.2))
        = (mall ml (.rep r (lo - 1) (hi.map fun h => h - 1)) (pos + p.1)
          (stepPrev prev rem p.1) (rem.drop p.1)).map
            (fun q => (p.1 + q.1, p.2 ++ q.2)) := by
      intro p hp
      rw [List.mem_filter] at hp
      have hpp := of_decide_eq_true hp.2
      have hlen : (rem.drop p.1).length + 1 ≤ rem.length := by
        have := List.length_drop p.1 rem
        omega
      have hf : mallFuel (Regex.rep r (lo - 1) (hi.map fun h => h - 1))
          (rem.drop p.1) ≤ k := by
        unfold mallFuel
        have hz : rsize (Regex.rep r (lo - 1) (hi.map fun h => h - 1))
            = 1 + rsize r := rfl
        rw [hz]
        nlinarith [rsize_pos r]
      rw [mallF_eq_mall hf]
    rw [flatMap_congr_mem hbody]

/-- The leftmost match of the regex at or after the current position:
`some (d, n, caps)` means the match starts `d` characters into `rem` and
consumes `n` characters.  This is the search loop of a global
`String.prototype.replace`. -/
def firstMatchFrom (ml : Bool) (r : Regex) :
    Nat → Option Char → List Char → Option (Nat × Nat × Caps)
  | pos, prev, [] =>
    match (mall ml r pos prev []).head? with
    | some p => some (0, p.1, p.2)
    | none => none
  | pos, prev, c :: rest =>
    match (mall ml r pos prev (c :: rest)).head? with
    | some p => some (0, p.1, p.2)
    | none =>
      (firstMatchFrom ml r (pos + 1) (some c) rest).map fun q =>
        (q.1 + 1, q.2.1, q.2.2)

/-- One piece of a replacement template: a literal string, a capture
reference `$k`, or the whole-match reference `$&`. -/
inductive TItem where
  | lit (s : List Char)
  | grp (n : Nat)
  | whole
  deriving Repr

/-- The characters of the subject between absolute positions `s` and `e`. -/
def sliceL (input : List Char) (s e : Nat) : List Char :=
  (input.drop s).take (e - s)

/-- Look up the span captured by group `k` (JavaScript yields the empty
string for a group that did not participate in the match). -/
def capLookup (caps : Caps) (k : Nat) : Option (Nat × Nat) :=
  match caps.find? fun c => c.1 = k with
  | some c => some c.2
  | none => none

/-- Instantiate a replacement template for a match spanning absolute
positions `ms` to `me` with captures `caps`. -/
def instTmpl (input : List Char) (ms me : Nat) (caps : Caps) :
    List TItem → List Char
  | [] => []
  | .lit s :: rest => s ++ instTmpl input ms me caps rest
  | .grp k :: rest =>
    (match capLookup caps k with
     | some se => sliceL input se.1 se.2
     | none => []) ++ instTmpl input ms me caps rest
  | .whole :: rest => sliceL input ms me ++ instTmpl input ms me caps rest

/-- The scan loop of a global replace: repeatedly find the leftmost match
in the rest of the subject, emit the unmatched chunk and the instantiated
template, and continue after the match (advancing one character past a
zero-width match, as JavaScript does).  The `fuel` argument makes the
recursion structural; `gRepGo` below supplies enough fuel that it never
runs out (`gRepGoF_stable`). -/
def gRepGoF (ml : Bool) (r : Regex) (tmpl : List TItem) (input : List Char) :
    Nat → Nat → Option Char → List Char → List Char
  | 0, _, _, rem => rem
  | fuel + 1, pos, prev, rem =>
    match firstMatchFrom ml r pos prev rem with
    | none => rem
    | some (d, n, caps) =>
      let i := pos + d
      let repl := instTmpl input i (i + n) caps tmpl
      let chunk := rem.take d
      match rem.drop d with
      | [] => chunk ++ repl
      | c :: rest =>
        if n = 0 then
          chunk ++ repl ++ c :: gRepGoF ml r tmpl input fuel (i + 1) (some c) rest
        else
          chunk ++ repl ++
            gRepGoF ml r tmpl input fuel (i + n) (stepPrev prev rem (d + n))
              (rest.drop (n - 1))

/-- The scan loop with its canonical fuel. -/
def gRepGo (ml : Bool) (r : Regex) (tmpl : List TItem) (input : List Char)
    (pos : Nat) (prev : Option Char) (rem : List Char) : List Char :=
  gRepGoF ml r tmpl input (rem.length + 1) pos prev rem

/-- `gRepGoF` is independent of the fuel once the fuel exceeds the length
of the remaining subject. -/
theorem gRepGoF_stable (ml : Bool) (r : Regex) (tmpl : List TItem) (input : List Char) :
    ∀ (f1 f2 pos : Nat) (prev : Option Char) (rem : List Char),
      rem.length + 1 ≤ f1 → rem.length + 1 ≤ f2 →
      gRepGoF ml r tmpl input f1 pos prev rem = gRepGoF ml r tmpl input f2 pos prev rem := by
  intro f1
  induction f1 using Nat.strong_induction_on with
  | _ f1 ih =>
    intro f2 pos prev rem h1 h2
    match f1, h1 with
    | g1 + 1, h1 =>
    match f2, h2 with
    | g2 + 1, h2 =>
    show gRepGoF ml r tmpl input (g1 + 1) pos prev rem
        = gRepGoF ml r tmpl input (g2 + 1) pos prev rem
    rw [gRepGoF, gRepGoF]
    cases hm : firstMatchFrom ml r pos prev rem with
    | none => rfl
    | some q =>
      obtain ⟨d, n, caps⟩ := q
      simp only
      cases hdrop : rem.drop d with
      | nil => rfl
      | cons c rest =>
        dsimp only
        have hrest : rest.length + 1 ≤ rem.length := by
          have h3 : (rem.drop d).length ≤ rem.length := by simp
          rw [hdrop] at h3
          simp only [List.length_cons] at h3
          omega
        by_cases hn : n = 0
        · rw [if_pos hn, if_pos hn,
            ih g1 (Nat.lt_succ_self g1) g2 (pos + d + 1) (some c) rest
              (by omega) (by omega)]
        · have hr2 : (rest.drop (n - 1)).length ≤ rest.length := by simp
          rw [if_neg hn, if_neg hn,
            ih g1 (Nat.lt_succ_self g1) g2 (pos + d + n)
              (stepPrev prev rem (d + n)) (rest.drop (n - 1)) (by omega) (by omega)]

theorem getLastQ_cons (c : Char) (l : List Char) :
    (c :: l).getLast? = match l.getLast? with
      | some y => some y
      | none => some c := by
  cases l with
  | nil => rfl
  | cons x xs =>
    cases hx : (x :: xs).getLast? with
    | none =>
      rw [List.getLast?_eq_none_iff] at hx
      exact absurd hx (List.cons_ne_nil x xs)
    | some y => rw [List.getLast?_cons_cons, hx]

theorem stepPrev_cons (prev : Option Char) (c : Char) (rest : List Char) (k : Nat) :
    stepPrev prev (c :: rest) (k + 1) = stepPrev (some c) rest k := by
  cases k with
  | zero => simp [stepPrev]
  | succ k =>
    unfold stepPrev
    rw [if_neg (Nat.succ_ne_zero _), if_neg (Nat.succ_ne_zero _),
      List.take_succ_cons, getLastQ_cons]
    cases h : (rest.take (k + 1)).getLast? <;> rfl

/- Conditional unfolding equations for the global-replace scan `gRepGo`. -/

theorem gRepGo_eq_none {ml : Bool} {r : Regex} (tmpl : List TItem) (input : List Char)
    {pos : Nat} {prev : Option Char} {rem : List Char}
    (hm : firstMatchFrom ml r pos prev rem = none) :
    gRepGo ml r tmpl input pos prev rem = rem := by
  rw [gRepGo]
  simp only [gRepGoF]
  rw [hm]

theorem gRepGo_eq_end {ml : Bool} {r : Regex} (tmpl : List TItem) (input : List Char)
    {pos : Nat} {prev : Option Char} {rem : List Char} {d n : Nat} {caps : Caps}
    (hm : firstMatchFrom ml r pos prev rem = some (d, n, caps))
    (hd : rem.drop d = []) :
    gRepGo ml r tmpl input pos prev rem =
      rem.take d ++ instTmpl input (pos + d) (pos + d + n) caps tmpl := by
  rw [gRepGo]
  simp only [gRepGoF]
  rw [hm]
  simp only [hd]

theorem gRepGo_eq_zero {ml : Bool} {r : Regex} (tmpl : List TItem) (input : List Char)
    {pos : Nat} {prev : Option Char} {rem : List Char} {d : Nat} {caps : Caps}
    {c : Char} {rest : List Char}
    (hm : firstMatchFrom ml r pos prev rem = some (d, 0, caps))
    (hd : rem.drop d = c :: rest) :
    gRepGo ml r tmpl input pos prev rem =
      rem.take d ++ instTmpl input (pos + d) (pos + d + 0) caps tmpl ++
        c :: gRepGo ml r tmpl input (pos + d + 1) (some c) rest := by
  have hrest : rest.length + 1 ≤ rem.length := by
    have h3 : (rem.drop d).length ≤ rem.length := by simp
    rw [hd] at h3
    simp only [List.length_cons] at h3
    omega
  rw [gRepGo]
  simp only [gRepGoF]
  rw [hm]
  simp only [hd, if_true]
  rw [gRepGoF_stable ml r tmpl input rem.length (rest.length + 1) (pos + d + 1) (some c)
    rest (by omega) (le_refl _)]
  rfl

theorem gRepGo_eq_pos {ml : Bool} {r : Regex} (tmpl : List TItem) (input : List Char)
    {pos : Nat} {prev : Option Char} {rem : List Char} {d n : Nat} {caps : Caps}
    {c : Char} {rest : List Char}
    (hm : firstMatchFrom ml r pos prev rem = some (d, n, caps)) (hn : n ≠ 0)
    (hd : rem.drop d = c :: rest) :
    gRepGo ml r tmpl input pos prev rem =
      rem.take d ++ instTmpl input (pos + d) (pos + d + n) caps tmpl ++
        gRepGo ml r tmpl input (pos + d + n) (stepPrev prev rem (d + n))
          (rest.drop (n - 1)) := by
  have hrest : rest.length + 1 ≤ rem.length := by
    have h3 : (rem.drop d).length ≤ rem.length := by simp
    rw [hd] at h3
    simp only [List.length_cons] at h3
    omega
  have hr2 : (rest.drop (n - 1)).length ≤ rest.length := by simp
  rw [gRepGo]
  simp only [gRepGoF]
  rw [hm]
  simp only [hd]
  rw [if_neg hn]
  rw [gRepGoF_stable ml r tmpl input rem.length ((rest.drop (n - 1)).length + 1)
    (pos + d + n) (stepPrev prev rem (d + n)) (rest.drop (n - 1)) (by omega) (le_refl _)]
  rfl

/- Unfolding equations for the leftmost-match search. -/

theorem firstMatchFrom_head {ml : Bool} {r : Regex} {pos : Nat} {prev : Option Char}
    {rem : List Char} {p : Nat × Caps} (h : (mall ml r pos prev rem).head? = some p) :
    firstMatchFrom ml r pos prev rem = some (0, p.1, p.2) := by
  cases rem with
  | nil => simp only [firstMatchFrom]; rw [h]
  | cons c rest => simp only [firstMatchFrom]; rw [h]

theorem firstMatchFrom_nil_none {ml : Bool} {r : Regex} {pos : Nat} {prev : Option Char}
    (h : (mall ml r pos prev []).head? = none) :
    firstMatchFrom ml r pos prev [] = none := by
  simp only [firstMatchFrom]; rw [h]

theorem firstMatchFrom_cons_none {ml : Bool} {r : Regex} {pos : Nat} {prev : Option Char}
    {c : Char} {rest : List Char}
    (h : (mall ml r pos prev (c :: rest)).head? = none) :
    firstMatchFrom ml r pos prev (c :: rest) =
      (firstMatchFrom ml r (pos + 1) (some c) rest).map fun q =>
        (q.1 + 1, q.2.1, q.2.2) := by
  simp only [firstMatchFrom]; rw [h]

/-- Stepping the scan over one character at which the pattern cannot match. -/
theorem gRepGo_cons_of_no_match {ml : Bool} {r : Regex} (tmpl : List TItem)
    (input : List Char) {pos : Nat} {prev : Option Char} {c : Char} {rest : List Char}
    (hm : mall ml r pos prev (c :: rest) = []) :
    gRepGo ml r tmpl input pos prev (c :: rest) =
      c :: gRepGo ml r tmpl input (pos + 1) (some c) rest := by
  have hh : (mall ml r pos prev (c :: rest)).head? = none := by rw [hm]; rfl
  have hfmf := firstMatchFrom_cons_none hh
  cases hfm : firstMatchFrom ml r (pos + 1) (some c) rest with
  | none =>
    rw [hfm] at hfmf
    rw [gRepGo_eq_none tmpl input hfmf, gRepGo_eq_none tmpl input hfm]
  | some q =>
    obtain ⟨d, n, caps⟩ := q
    rw [hfm] at hfmf
    simp only [Option.map_some'] at hfmf
    have harith : pos + (d + 1) = pos + 1 + d := by omega
    cases hd : rest.drop d with
    | nil =>
      have hd2 : (c :: rest).drop (d + 1) = [] := by
        rw [List.drop_succ_cons, hd]
      rw [gRepGo_eq_end tmpl input hfmf hd2, gRepGo_eq_end tmpl input hfm hd,
        List.take_succ_cons, harith]
      simp
    | cons c2 rest2 =>
      have hd2 : (c :: rest).drop (d + 1) = c2 :: rest2 := by
        rw [List.drop_succ_cons, hd]
      by_cases hn : n = 0
      · subst hn
        rw [gRepGo_eq_zero tmpl input hfmf hd2, gRepGo_eq_zero tmpl input hfm hd,
          List.take_succ_cons, harith]
        simp
      · rw [gRepGo_eq_pos tmpl input hfmf hn hd2, gRepGo_eq_pos tmpl input hfm hn hd,
          List.take_succ_cons, harith]
        have harith2 : d + 1 + n = (d + n) + 1 := by omega
        rw [harith2, stepPrev_cons]
        simp

/-- `subject.replace(/re/g, template)` over character lists. -/
def gReplace (ml : Bool) (r : Regex) (tmpl : List TItem) (input : List Char) :
    List Char :=
  gRepGo ml r tmpl input 0 none input

/-- One `.replace(regex, template)` stage of a formatting pipeline. -/
structure Rule where
  ml : Bool
  pat : Regex
  tmpl : List TItem

/-- Apply one replace stage. -/
def applyRule (ru : Rule) (s : List Char) : List Char :=
  gReplace ru.ml ru.pat ru.tmpl s

/-- Apply the stages of a pipeline in order. -/
def applyRules (rs : List Rule) (s : List Char) : List Char :=
  rs.foldl (fun s ru => applyRule ru s) s

/- Shorthand for transcribing the source regexes. -/

/-- A single literal character. -/
def rch (c : Char) : Regex := .cls false [.ch c]

/-- A literal string. -/
def rstr (s : List Char) : Regex := s.foldr (fun c r => .seq (rch c) r) .eps

/-- Sequencing of a list of regexes. -/
def rcat (l : List Regex) : Regex := l.foldr .seq .eps

/-- `+` (greedy). -/
def rplus (r : Regex) : Regex := .rep r 1 none

/-- `*` (greedy). -/
def rstar (r : Regex) : Regex := .rep r 0 none

/-- `?` (greedy). -/
def ropt (r : Regex) : Regex := .rep r 0 (some 1)

/-- `[a-z]`. -/
def rlower : Regex := .cls false [.range 'a' 'z']

/-- `[A-Z]`. -/
def rupper : Regex := .cls false [.range 'A' 'Z']

/-- `[A-Za-z]`. -/
def ralpha : Regex := .cls false [.range 'A' 'Z', .range 'a' 'z']

/-- `\d`. -/
def rdigit : Regex := .cls false [.dg]

/-- `\s`. -/
def rsp : Regex := .cls false [.sp]

/-- `\S` (also `[^\s]`, used verbatim in the source). -/
def rnsp : Regex := .cls true [.sp]

/-- `\w`. -/
def rwd : Regex := .cls false [.wd]

/-- Literal-text template piece. -/
def tl (s : String) : TItem := .lit s.data

/-- Capture-reference template piece (`$k`). -/
def tg (n : Nat) : TItem := .grp n

/-- `String.prototype.trim()`: strip JavaScript whitespace from both ends. -/
def jsTrim (s : List Char) : List Char :=
  ((s.dropWhile jsSpace).reverse.dropWhile jsSpace).reverse


/- The transformation rules, transcribed from `formatText` in
`src/nodes/PdfParse/PdfParse.node.ts` (source line numbers cited per rule). -/

/-- `.replace(/\r\n/g, '\n')` — line-ending normalization (lines 35, 40, 57, 81, 153). -/
def crlfRule : Rule := ⟨false, rstr ['\r', '\n'], [tl "\n"]⟩

/-- `.replace(/([a-z])([A-Z])/g, '$1 $2')` (lines 42, 59, 85). -/
def camelRule : Rule :=
  ⟨false, rcat [.grp 1 rlower, .grp 2 rupper], [tg 1, tl " ", tg 2]⟩

/-- `.replace(/(\d)([A-Za-z])/g, '$1 $2')` (lines 43, 60, 86). -/
def digitLetterRule : Rule :=
  ⟨false, rcat [.grp 1 rdigit, .grp 2 ralpha], [tg 1, tl " ", tg 2]⟩

/-- `.replace(/([A-Za-z])(\d)/g, '$1 $2')` (lines 44, 61, 87). -/
def letterDigitRule : Rule :=
  ⟨false, rcat [.grp 1 ralpha, .grp 2 rdigit], [tg 1, tl " ", tg 2]⟩

/-- `.replace(/[ \t]+/g, ' ')` (lines 74, 142, 155). -/
def htCollapseRule : Rule := ⟨false, rplus (.cls false [.ch ' ', .ch '\t']), [tl " "]⟩

/-- `.replace(/^\s+|\s+$/gm, '')` (lines 47, 76, 144, 156). -/
def trimLinesRule : Rule :=
  ⟨true, .alt (rcat [.bol, rplus rsp]) (rcat [rplus rsp, .eol]), []⟩

/-- The single rule of `raw` mode (line 35). -/
def rawRules : List Rule := [crlfRule]

/-- The rules of `smart` mode after its line-ending normalization
(lines 42-52), in source order. -/
def smartTail : List Rule :=
  [ camelRule, digitLetterRule, letterDigitRule,
    ⟨false, rcat [.grp 1 (.cls false [.ch '.', .ch '!', .ch '?']), rstar rsp, rch '\n'],
      [tg 1, tl "\n\n"]⟩,
    ⟨false, .rep (rch '\n') 4 none, [tl "\n\n\n"]⟩,
    trimLinesRule,
    ⟨false, rstr "PURCHASEORDERNO:".data, [tl "PURCHASE ORDER NO:"]⟩,
    ⟨false, rcat [.grp 1 (.rep rupper 2 none), rstar rsp, .grp 2 (.rep rupper 2 none)],
      [tg 1, tl "\n", tg 2]⟩,
    ⟨false, .grp 1 (rcat [.rep rdigit 2 (some 2), rch '/', .rep rdigit 2 (some 2),
      rch '/', .rep rdigit 4 (some 4)]), [tl "\n", tg 1]⟩,
    ⟨false, .grp 1 (rstr "IMPORTANT:".data), [tl "\n", tg 1]⟩ ]

/-- The rules of `smart` mode (lines 39-52), in source order. -/
def smartRules : List Rule := crlfRule :: smartTail

/-- The rules of `structured` mode after its line-ending normalization
(lines 59-76), in source order (the final `.trim()` of line 77 is applied
by `formatText` below). -/
def structuredTail : List Rule :=
  [ camelRule, digitLetterRule, letterDigitRule,
    ⟨false, .grp 1 (rcat [rstr "GPOBox".data, rplus rdigit]), [tl "GPO Box ", tg 1]⟩,
    ⟨false, .grp 1 (rcat [.rep rupper 2 none, rsp, .rep rupper 2 none, rsp, rplus rdigit]),
      [tl "\n", tg 1]⟩,
    ⟨false, .grp 1 (rcat [rstr "www.".data, rplus rnsp]), [tl "\n", tg 1]⟩,
    ⟨false, .grp 1 (rcat [rplus rnsp, rch '@', rplus rnsp]), [tl "\n", tg 1]⟩,
    ⟨false, .grp 1 (rcat [rch '(', .rep rdigit 2 (some 2), rch ')', rsp,
      .rep rdigit 4 (some 4), rsp, .rep rdigit 3 (some 4)]), [tl "\n", tg 1]⟩,
    ⟨false, rstr "PURCHASEORDERNO:".data, [tl "PURCHASE ORDER NO:"]⟩,
    ⟨false, .grp 1 (rstr "GOODS OR SERVICE REQUIRED".data), [tl "\n\n", tg 1, tl "\n"]⟩,
    ⟨false, .grp 1 (rstr "Total Order Value".data), [tl "\n", tg 1]⟩,
    ⟨false, .grp 1 (rstr "IMPORTANT:".data), [tl "\n\n", tg 1]⟩,
    htCollapseRule,
    ⟨false, .rep (rch '\n') 3 none, [tl "\n\n"]⟩,
    trimLinesRule ]

/-- The rules of `structured` mode (lines 56-76). -/
def structuredRules : List Rule := crlfRule :: structuredTail

/-- `[^:\n]`. -/
def nonColonNl : Regex := .cls true [.ch ':', .ch '\n']

/-- The rules of `visual` mode after its line-ending normalization
(lines 85-146), in source order across its eight phases (the final
`.trim()` of line 147 is applied by `formatText`). -/
def visualTail : List Rule :=
  [ -- PHASE 1 (lines 85-88)
    camelRule, digitLetterRule, letterDigitRule,
    ⟨false, rcat [.grp 1 (.cls false [.ch '.', .ch ',', .ch ';', .ch ':']), .grp 2 ralpha],
      [tg 1, tl " ", tg 2]⟩,
    -- PHASE 2 (lines 94-100)
    ⟨false, rcat [.grp 1 rnsp, .rep rsp 8 none, .grp 2 rnsp], [tg 1, tl "\n", tg 2]⟩,
    ⟨false, rcat [.grp 1 rnsp, .rep rsp 5 (some 7), .grp 2 rnsp], [tg 1, tl "\n", tg 2]⟩,
    ⟨false, rcat [.grp 1 rnsp, .rep rsp 3 (some 4), .grp 2 rnsp], [tg 1, tl "   ", tg 2]⟩,
    ⟨false, rcat [.grp 1 rnsp, .rep rsp 2 (some 2), .grp 2 rnsp], [tg 1, tl "  ", tg 2]⟩,
    -- PHASE 3 (lines 105-108)
    ⟨false, rcat [.grp 1 (rcat [.rep nonColonNl 3 none, rch ':']), rstar rsp,
      .grp 2 (rcat [rupper, .rep (.cls false [.range 'A' 'Z', .sp]) 10 none])],
      [tg 1, tl "\n", tg 2]⟩,
    ⟨false, rcat [.grp 1 (rcat [.rep nonColonNl 3 none, rch ':']), rstar rsp,
      .grp 2 (.rep nonColonNl 20 none)], [tg 1, tl "\n", tg 2]⟩,
    ⟨false, rcat [.grp 1 (rcat [.rep nonColonNl 2 (some 8), rch ':']), rstar rsp,
      .grp 2 (rcat [.rep nonColonNl 1 (some 15), .alt rsp .eol])], [tg 1, tl " ", tg 2]⟩,
    -- PHASE 4 (lines 113-115)
    ⟨false, rcat [.grp 1 rwd, rplus rsp, .grp 2 (rcat [ropt (rch '('),
      .rep rdigit 2 (some 4), ropt (rch ')'), ropt rsp, .rep rdigit 3 (some 4),
      ropt (.cls false [.sp, .ch '-']), .rep rdigit 3 (some 4)])], [tg 1, tl "\n", tg 2]⟩,
    ⟨false, rcat [.grp 1 rwd, rplus rsp, .grp 2 (rcat [rplus rnsp, rch '@', rplus rnsp,
      rch '.', rplus rnsp])], [tg 1, tl "\n", tg 2]⟩,
    ⟨false, rcat [.grp 1 rwd, rplus rsp, .grp 2 (rcat [.alt
      (rcat [rstr "http".data, ropt (rch 's'), rstr "://".data]) (rstr "www.".data),
      rplus rnsp])], [tg 1, tl "\n", tg 2]⟩,
    -- PHASE 5 (lines 120-122)
    ⟨false, rcat [.grp 1 (.cls true [.ch '\n', .dg]), rplus rsp,
      .grp 2 (rcat [rplus rdigit, rplus rsp, rupper])], [tg 1, tl "\n", tg 2]⟩,
    ⟨false, rcat [.grp 1 ralpha, rplus rsp, .grp 2 (rcat [
      .cls false [.ch '$', .ch '€', .ch '£', .ch '¥', .ch '₹', .ch '₽', .ch '¢',
        .ch '₩', .ch '₪', .ch '₫', .ch '₦', .ch '₨', .ch '₱', .ch '₡', .ch '₴', .ch '₼'],
      rplus (.cls false [.dg, .ch ',']), ropt (rch '.'), rstar rdigit])],
      [tg 1, tl "\n", tg 2]⟩,
    -- PHASE 6 (lines 127-128)
    ⟨false, rcat [.grp 1 rlower, rplus rsp, .grp 2 (rcat [.rep rupper 4 none,
      rstar (rcat [rplus rsp, .rep rupper 4 none]),
      rstar (rcat [rplus rsp, .rep rupper 2 none])])], [tg 1, tl "\n\n", tg 2]⟩,
    ⟨false, rcat [.grp 1 (rcat [.rep rupper 4 none,
      rstar (rcat [rplus rsp, .rep rupper 4 none])]), rplus rsp,
      .grp 2 (.rep rlower 3 none)], [tg 1, tl "\n\n", tg 2]⟩,
    -- PHASE 7 (lines 133-135)
    ⟨false, rcat [.grp 1 (.cls false [.ch '.', .ch '!', .ch '?']), rplus rsp,
      .grp 2 (rcat [rupper, .rep rlower 4 none])], [tg 1, tl "\n", tg 2]⟩,
    ⟨false, .rep (.cls false [.ch '-', .ch '_', .ch '=']) 4 none,
      [tl "\n", .whole, tl "\n"]⟩,
    -- PHASE 8 (lines 140-146)
    ⟨false, .rep (rch '\n') 4 none, [tl "\n\n\n"]⟩,
    htCollapseRule,
    trimLinesRule,
    ⟨false, rcat [rch '\n', rstar rsp, rch '\n', rstar rsp, rch '\n'], [tl "\n\n"]⟩ ]

/-- The rules of `visual` mode (lines 81-146). -/
def visualRules : List Rule := crlfRule :: visualTail

/-- The rules of `minimal` mode after its line-ending normalization
(lines 155-156). -/
def minimalTail : List Rule := [htCollapseRule, trimLinesRule]

/-- The rules of `minimal` mode (lines 151-156). -/
def minimalRules : List Rule := crlfRule :: minimalTail

/-- `.replace(/\s+/g, ' ')` (line 160). -/
def wsCollapseRule : Rule := ⟨false, rplus rsp, [tl " "]⟩

/-- `.replace(/\n\s*\n/g, '\n')` (line 161). -/
def nlBlankRule : Rule := ⟨false, rcat [rch '\n', rstar rsp, rch '\n'], [tl "\n"]⟩

/-- The rules of `compact` mode (lines 159-162; the final `.trim()` of
line 163 is applied by `formatText`). -/
def compactRules : List Rule := [wsCollapseRule, nlBlankRule]

/-- `formatText(text, formatting)` from
`src/nodes/PdfParse/PdfParse.node.ts` lines 31-168: the switch over the
six formatting modes, falling through to the input unchanged for an
unknown mode. -/
def formatText (text : String) (formatting : String) : String :=
  if formatting = "raw" then ⟨applyRules rawRules text.data⟩
  else if formatting = "smart" then ⟨applyRules smartRules text.data⟩
  else if formatting = "structured" then ⟨jsTrim (applyRules structuredRules text.data)⟩
  else if formatting = "visual" then ⟨jsTrim (applyRules visualRules text.data)⟩
  else if formatting = "minimal" then ⟨applyRules minimalRules text.data⟩
  else if formatting = "compact" then ⟨jsTrim (applyRules compactRules text.data)⟩
  else text

/-- `text.split(/\f/)` over character lists (every form feed is a
separator; empty segments are kept, as JavaScript does). -/
def splitOnFF : List Char → List (List Char)
  | [] => [[]]
  | c :: rest =>
    if c = '\x0c' then [] :: splitOnFF rest
    else
      match splitOnFF rest with
      | l :: ls => (c :: l) :: ls
      | [] => [[c]]

/-- The page splitter from `PdfParse.execute` (line 872):
`extractedText.split(/\f/).filter(page => page.trim().length > 0)`. -/
def splitPages (t : String) : List String :=
  ((splitOnFF t.data).filter fun p => decide (0 < (jsTrim p).length)).map
    fun p => (⟨p⟩ : String)

/-- Direct model of the line-ending normalization `/\r\n/g → '\n'`:
scan left to right, replacing each carriage-return/line-feed pair. -/
def crlfToLf : List Char → List Char
  | [] => []
  | [c] => [c]
  | c1 :: c2 :: rest =>
    if c1 = '\r' ∧ c2 = '\n' then '\n' :: crlfToLf rest
    else c1 :: crlfToLf (c2 :: rest)

/-- Every carriage return in the list is immediately followed by a line
feed (the inputs on which `\r\n → \n` removes all carriage returns). -/
def loneCRFree : List Char → Bool
  | [] => true
  | [c] => !decide (c = '\r')
  | c1 :: c2 :: rest =>
    if c1 = '\r' then
      if c2 = '\n' then loneCRFree rest else false
    else loneCRFree (c2 :: rest)

theorem mall_crlf_eq (ml : Bool) (pos : Nat) (prev : Option Char) (rem : List Char) :
    mall ml (rstr ['\r', '\n']) pos prev rem =
      match rem with
      | c1 :: c2 :: _ =>
        if c1 = '\r' then if c2 = '\n' then [(2, [])] else [] else []
      | _ => [] := by
  cases rem with
  | nil => simp [rstr, rch, mall_seq, mall_cls]
  | cons c1 rest1 =>
    cases rest1 with
    | nil =>
      by_cases h1 : c1 = '\r' <;>
        simp [rstr, rch, mall_seq, mall_cls, mall_eps, clsMatch, citemMatch, h1, stepPrev]
    | cons c2 rest =>
      by_cases h1 : c1 = '\r' <;> by_cases h2 : c2 = '\n' <;>
        simp [rstr, rch, mall_seq, mall_cls, mall_eps, clsMatch, citemMatch, h1, h2,
          stepPrev] <;>
        first
          | exact fun h => h1 h.symm
          | exact fun h => h2 h.symm
          | exact fun ha hb => h2 hb.symm

theorem mall_crlfRule (ml : Bool) (pos : Nat) (prev : Option Char) (rem : List Char) :
    mall ml crlfRule.pat pos prev rem =
      match rem with
      | c1 :: c2 :: _ =>
        if c1 = '\r' then if c2 = '\n' then [(2, [])] else [] else []
      | _ => [] := mall_crlf_eq ml pos prev rem

/-- The `raw`-mode rule is the direct CRLF scan. -/
theorem applyRule_crlf (input : List Char) : applyRule crlfRule input = crlfToLf input := by
  suffices h : ∀ (k : Nat) (rem : List Char), rem.length ≤ k → ∀ (pos : Nat)
      (prev : Option Char),
      gRepGo false crlfRule.pat crlfRule.tmpl input pos prev rem = crlfToLf rem by
    exact h input.length input (le_refl _) 0 none
  intro k
  induction k with
  | zero =>
    intro rem hlen pos prev
    have hrem : rem = [] := by
      cases rem with
      | nil => rfl
      | cons c r => simp at hlen
    subst hrem
    rw [gRepGo_eq_none _ input (firstMatchFrom_nil_none (by rw [mall_crlfRule]; rfl))]
    rfl
  | succ k ih =>
    intro rem hlen pos prev
    match rem with
    | [] =>
      rw [gRepGo_eq_none _ input (firstMatchFrom_nil_none (by rw [mall_crlfRule]; rfl))]
      rfl
    | [c] =>
      have hnm : mall false crlfRule.pat pos prev [c] = [] := by
        rw [mall_crlfRule]
      rw [gRepGo_cons_of_no_match _ input hnm,
        gRepGo_eq_none _ input (firstMatchFrom_nil_none (by rw [mall_crlfRule]; rfl))]
      rfl
    | c1 :: c2 :: rest =>
      by_cases hp : c1 = '\r' ∧ c2 = '\n'
      · have hmall : mall false crlfRule.pat pos prev (c1 :: c2 :: rest) = [(2, [])] := by
          rw [show crlfRule.pat = rstr ['\r', '\n'] from rfl, mall_crlf_eq]
          simp [hp.1, hp.2]
        have hfmf := firstMatchFrom_head (by rw [hmall]; rfl)
        have heq := gRepGo_eq_pos crlfRule.tmpl input hfmf
          (by omega) (show (c1 :: c2 :: rest).drop 0 = c1 :: c2 :: rest from rfl)
        rw [heq]
        have hrec : (c2 :: rest).drop (2 - 1) = rest := rfl
        rw [hrec, ih rest (by simp at hlen; omega) (pos + 0 + 2) _]
        rw [crlfToLf, if_pos hp]
        rfl
      · have hnm : mall false crlfRule.pat pos prev (c1 :: c2 :: rest) = [] := by
          rw [show crlfRule.pat = rstr ['\r', '\n'] from rfl, mall_crlf_eq]
          by_cases h1 : c1 = '\r'
          · have h2 : ¬ c2 = '\n' := fun h2 => hp ⟨h1, h2⟩
            simp [h1, h2]
          · simp [h1]
        rw [gRepGo_cons_of_no_match _ input hnm,
          ih (c2 :: rest) (by simp at hlen ⊢; omega) (pos + 1) (some c1)]
        rw [crlfToLf, if_neg hp]

theorem crlfToLf_no_cr {s : List Char} (h : loneCRFree s = true) : '\r' ∉ crlfToLf s := by
  suffices hk : ∀ (k : Nat) (s : List Char), s.length ≤ k → loneCRFree s = true →
      '\r' ∉ crlfToLf s from hk s.length s (le_refl _) h
  intro k
  induction k with
  | zero =>
    intro s hlen _
    have hs : s = [] := by
      cases s with
      | nil => rfl
      | cons c r => simp at hlen
    subst hs
    simp [crlfToLf]
  | succ k ih =>
    intro s hlen hfree
    match s with
    | [] => simp [crlfToLf]
    | [c] =>
      have hc : ¬ c = '\r' := by
        rw [loneCRFree] at hfree
        simpa using hfree
      have he : crlfToLf [c] = [c] := rfl
      rw [he]
      simp only [List.mem_singleton]
      exact fun hx => hc hx.symm
    | c1 :: c2 :: rest =>
      rw [crlfToLf]
      by_cases hp : c1 = '\r' ∧ c2 = '\n'
      · rw [if_pos hp]
        have hfree2 : loneCRFree rest = true := by
          rw [loneCRFree, if_pos hp.1, if_pos hp.2] at hfree
          exact hfree
        have hih := ih rest (by simp at hlen; omega) hfree2
        simp only [List.mem_cons]
        rintro (h1 | h1)
        · exact absurd h1.symm (by decide)
        · exact hih h1
      · rw [if_neg hp]
        have hc1 : ¬ c1 = '\r' := by
          intro hc
          rw [loneCRFree, if_pos hc] at hfree
          by_cases h2 : c2 = '\n'
          · exact hp ⟨hc, h2⟩
          · rw [if_neg h2] at hfree
            exact Bool.false_ne_true hfree
        have hfree2 : loneCRFree (c2 :: rest) = true := by
          rw [loneCRFree, if_neg hc1] at hfree
          exact hfree
        have hih := ih (c2 :: rest) (by simp at hlen ⊢; omega) hfree2
        simp only [List.mem_cons]
        rintro (h1 | h1)
        · exact hc1 h1.symm
        · exact hih h1

/-- Rejoining the form-feed split with its separator recovers the input. -/
def joinFF : List (List Char) → List Char
  | [] => []
  | [l] => l
  | l :: l2 :: ls => l ++ '\x0c' :: joinFF (l2 :: ls)

theorem splitOnFF_ne_nil (s : List Char) : splitOnFF s ≠ [] := by
  cases s with
  | nil => simp [splitOnFF]
  | cons c rest =>
    rw [splitOnFF]
    by_cases h : c = '\x0c'
    · simp [h]
    · cases hs : splitOnFF rest with
      | nil => simp [h, hs]
      | cons l ls => simp [h, hs]

theorem joinFF_splitOnFF (s : List Char) : joinFF (splitOnFF s) = s := by
  induction s with
  | nil => rfl
  | cons c rest ih =>
    rw [splitOnFF]
    by_cases h : c = '\x0c'
    · rw [if_pos h]
      cases hs : splitOnFF rest with
      | nil => exact absurd hs (splitOnFF_ne_nil rest)
      | cons l ls =>
        rw [hs] at ih
        rw [joinFF, h]
        simp only [List.nil_append, List.cons.injEq, true_and]
        rw [← ih]
    · rw [if_neg h]
      cases hs : splitOnFF rest with
      | nil => exact absurd hs (splitOnFF_ne_nil rest)
      | cons l ls =>
        rw [hs] at ih
        cases ls with
        | nil =>
          rw [joinFF]
          rw [joinFF] at ih
          rw [ih]
        | cons l2 ls2 =>
          rw [joinFF]
          rw [joinFF] at ih
          rw [List.cons_append, ih]

/-- C1 counterexample: in `visual` mode, the input consisting of `Name:`,
nine spaces and `John` produces NO line break at all in the final output,
refuting the claimed newline between the two tokens. -/
theorem c1_nine_space_gap_no_break :
    '\n' ∉ (formatText "Name:         John" "visual").data := by decide

/-- C1 amended: phase 2 of `visual` does turn the 9-space gap into a line
break, but the phase-3 short label:value rule rejoins the pair with a
single space, so the final output is exactly `Name: John`. -/
theorem c1_nine_space_gap_output :
    formatText "Name:         John" "visual" = "Name: John" := by decide

/-- C4 counterexample: in `visual` mode, the input consisting of `Name:`,
three spaces and `John` does NOT keep its three literal spaces: the whole
output contains a single space character, and the input is not returned
unchanged. -/
theorem c4_three_spaces_not_preserved :
    (formatText "Name:   John" "visual").data.count ' ' = 1 ∧
    formatText "Name:   John" "visual" ≠ "Name:   John" := by decide

/-- C4 amended: phase 2 of `visual` preserves the 3-space gap, but the
phase-3 short label:value rule (and, failing that, the phase-8 whitespace
normalization) collapses it, so the final output is exactly `Name: John` —
no line break, but a single space rather than three. -/
theorem c4_three_space_gap_output :
    formatText "Name:   John" "visual" = "Name: John" := by decide

/-- C5: the formatter is total — in this embedding every mode is a total
function by construction, and the edge inputs named by the specification
(empty string, whitespace-only, form-feed-only, unknown mode) evaluate
normally. -/
theorem formatText_total :
    (∀ (T M : String), ∃ s : String, formatText T M = s) ∧
    (∀ M : String, formatText "" M = "") ∧
    formatText "\x0c" "compact" = "" ∧
    formatText " \t\n " "minimal" = "" ∧
    formatText " \x0c \x0c " "visual" = "" := by
  refine ⟨fun T M => ⟨formatText T M, rfl⟩, ?_, by decide, by decide, by decide⟩
  intro M
  unfold formatText
  split_ifs <;> rfl

/-- C6: any mode value other than the six documented ones falls through
the switch and returns the input text unchanged. -/
theorem formatText_unknown_mode (T M : String)
    (h : M ∉ (["raw", "smart", "structured", "visual", "minimal",
      "compact"] : List String)) :
    formatText T M = T := by
  have h1 : ¬ M = "raw" := fun he => h (by simp [he])
  have h2 : ¬ M = "smart" := fun he => h (by simp [he])
  have h3 : ¬ M = "structured" := fun he => h (by simp [he])
  have h4 : ¬ M = "visual" := fun he => h (by simp [he])
  have h5 : ¬ M = "minimal" := fun he => h (by simp [he])
  have h6 : ¬ M = "compact" := fun he => h (by simp [he])
  unfold formatText
  rw [if_neg h1, if_neg h2, if_neg h3, if_neg h4, if_neg h5, if_neg h6]

/-- C6 witness: a concrete unknown mode is passed through. -/
theorem formatText_unknown_mode_witness :
    formatText "some text" "markdown" = "some text" :=
  formatText_unknown_mode "some text" "markdown" (by decide)

/-- C7 counterexample: a lone carriage return (one not followed by a line
feed) survives `raw` mode, refuting the claim that the output never
contains a carriage return. -/
theorem c7_lone_cr_survives :
    formatText "a\rb" "raw" = "a\rb" ∧ '\r' ∈ (formatText "a\rb" "raw").data := by
  decide

/-- C7 amended: `raw` mode is exactly the `\r\n → \n` substitution (the
direct scan `crlfToLf`), and its output is free of carriage returns
provided every carriage return of the input is part of a `\r\n` pair. -/
theorem formatText_raw_eq (T : String) :
    formatText T "raw" = ⟨crlfToLf T.data⟩ := by
  unfold formatText
  rw [if_pos rfl]
  show (⟨applyRules rawRules T.data⟩ : String) = _
  rw [show applyRules rawRules T.data = applyRule crlfRule T.data from rfl,
    applyRule_crlf]

theorem no_cr_raw (T : String) (hT : loneCRFree T.data = true) :
    '\r' ∉ (formatText T "raw").data := by
  rw [formatText_raw_eq]
  exact crlfToLf_no_cr hT

theorem formatText_raw_spec (T : String) :
    formatText T "raw" = ⟨crlfToLf T.data⟩ ∧
    (loneCRFree T.data = true → '\r' ∉ (formatText T "raw").data) :=
  ⟨formatText_raw_eq T, fun hfree => no_cr_raw T hfree⟩

/-- C7 witness: a `\r\n` input is normalized and carriage-return-free. -/
theorem formatText_raw_spec_witness :
    formatText "x\r\ny" "raw" = ⟨crlfToLf "x\r\ny".data⟩ ∧
    '\r' ∉ (formatText "x\r\ny" "raw").data :=
  ⟨(formatText_raw_spec "x\r\ny").1, (formatText_raw_spec "x\r\ny").2 (by decide)⟩

/-- C9: the page splitter — concrete case from the specification, the
split-filter description, order preservation with segments kept verbatim
(a sublist of the raw split), and the fact that the raw split is a
partition of the text (rejoining with form feeds recovers it). -/
theorem splitPages_spec :
    splitPages "Page1\x0cPage2\x0c\n\x0cPage3" = ["Page1", "Page2", "Page3"] ∧
    (∀ t : String, splitPages t =
      ((splitOnFF t.data).filter fun p => decide (0 < (jsTrim p).length)).map
        fun p => (⟨p⟩ : String)) ∧
    (∀ t : String, ((splitPages t).map String.data).Sublist (splitOnFF t.data)) ∧
    (∀ s : List Char, joinFF (splitOnFF s) = s) := by
  refine ⟨by decide, fun t => rfl, fun t => ?_, joinFF_splitOnFF⟩
  rw [splitPages, List.map_map]
  have hco : (String.data ∘ fun p => (⟨p⟩ : String)) = id := rfl
  rw [hco, List.map_id]
  exact List.filter_sublist _

/-- Peeling one rule off a pipeline. -/
theorem applyRules_cons (ru : Rule) (rest : List Rule) (s : List Char) :
    applyRules (ru :: rest) s = applyRules rest (applyRule ru s) := rfl

/-- The literal characters contributed by a replacement template (capture
and whole-match references only copy characters of the subject). -/
def tmplLits : List TItem → List Char
  | [] => []
  | .lit s :: rest => s ++ tmplLits rest
  | .grp _ :: rest => tmplLits rest
  | .whole :: rest => tmplLits rest

theorem mem_sliceL {input : List Char} {s e : Nat} {c : Char}
    (h : c ∈ sliceL input s e) : c ∈ input := by
  unfold sliceL at h
  exact List.mem_of_mem_drop (List.mem_of_mem_take h)

theorem instTmpl_mem {input : List Char} {ms me : Nat} {caps : Caps}
    {t : List TItem} {c : Char} (h : c ∈ instTmpl input ms me caps t) :
    c ∈ input ∨ c ∈ tmplLits t := by
  induction t with
  | nil => simp [instTmpl] at h
  | cons it rest ih =>
    cases it with
    | lit s =>
      rw [instTmpl] at h
      rcases List.mem_append.mp h with h | h
      · right
        rw [tmplLits]
        exact List.mem_append.mpr (Or.inl h)
      · rcases ih h with h | h
        · exact Or.inl h
        · right
          rw [tmplLits]
          exact List.mem_append.mpr (Or.inr h)
    | grp k =>
      rw [instTmpl] at h
      rcases List.mem_append.mp h with h | h
      · cases hc : capLookup caps k with
        | none =>
          rw [hc] at h
          simp at h
        | some se =>
          rw [hc] at h
          exact Or.inl (mem_sliceL h)
      · rcases ih h with h | h
        · exact Or.inl h
        · right
          rw [tmplLits]
          exact h
    | whole =>
      rw [instTmpl] at h
      rcases List.mem_append.mp h with h | h
      · exact Or.inl (mem_sliceL h)
      · rcases ih h with h | h
        · exact Or.inl h
        · right
          rw [tmplLits]
          exact h

/-- Every character of a global-replace output comes from the subject or
from the template's literal text. -/
theorem gRepGo_mem (ml : Bool) (r : Regex) (tmpl : List TItem) (input : List Char) :
    ∀ (k : Nat) (rem : List Char), rem.length ≤ k → ∀ (pos : Nat) (prev : Option Char),
      (∀ c ∈ rem, c ∈ input) →
      ∀ c ∈ gRepGo ml r tmpl input pos prev rem, c ∈ input ∨ c ∈ tmplLits tmpl := by
  intro k
  induction k using Nat.strong_induction_on with
  | _ k ih =>
    intro rem hlen pos prev hsub c hc
    cases hm : firstMatchFrom ml r pos prev rem with
    | none =>
      rw [gRepGo_eq_none tmpl input hm] at hc
      exact Or.inl (hsub c hc)
    | some q =>
      obtain ⟨d, n, caps⟩ := q
      cases hd : rem.drop d with
      | nil =>
        rw [gRepGo_eq_end tmpl input hm hd] at hc
        rcases List.mem_append.mp hc with h | h
        · exact Or.inl (hsub c (List.mem_of_mem_take h))
        · exact instTmpl_mem h
      | cons c2 rest =>
        have hrest : rest.length < rem.length := by
          have h3 : (rem.drop d).length ≤ rem.length := by simp
          rw [hd] at h3
          simp only [List.length_cons] at h3
          omega
        have hsubrest : ∀ x ∈ rest, x ∈ input := fun x hx =>
          hsub x (List.mem_of_mem_drop (hd ▸ List.mem_cons_of_mem c2 hx))
        by_cases hn : n = 0
        · subst hn
          rw [gRepGo_eq_zero tmpl input hm hd] at hc
          rcases List.mem_append.mp hc with h | h
          · rcases List.mem_append.mp h with h | h
            · exact Or.inl (hsub c (List.mem_of_mem_take h))
            · exact instTmpl_mem h
          · rcases List.mem_cons.mp h with h | h
            · subst h
              exact Or.inl (hsub c (List.mem_of_mem_drop (hd ▸ List.mem_cons_self _ rest)))
            · exact ih rest.length (by omega) rest (le_refl _) _ _ hsubrest c h
        · rw [gRepGo_eq_pos tmpl input hm hn hd] at hc
          rcases List.mem_append.mp hc with h | h
          · rcases List.mem_append.mp h with h | h
            · exact Or.inl (hsub c (List.mem_of_mem_take h))
            · exact instTmpl_mem h
          · have hlen2 : (rest.drop (n - 1)).length ≤ rest.length := by simp
            exact ih rest.length (by omega) (rest.drop (n - 1)) (by omega) _ _
              (fun x hx => hsubrest x (List.mem_of_mem_drop hx)) c h

theorem applyRule_mem {ru : Rule} {s : List Char} {c : Char}
    (h : c ∈ applyRule ru s) : c ∈ s ∨ c ∈ tmplLits ru.tmpl :=
  gRepGo_mem ru.ml ru.pat ru.tmpl s s.length s (le_refl _) 0 none (fun _ hx => hx) c h

/-- A character outside the subject and outside every template never
appears in a pipeline's output. -/
theorem applyRules_not_mem {rules : List Rule} {s : List Char} {c : Char}
    (hrules : ∀ ru ∈ rules, c ∉ tmplLits ru.tmpl) (hs : c ∉ s) :
    c ∉ applyRules rules s := by
  induction rules generalizing s with
  | nil => exact hs
  | cons ru rest ih =>
    rw [applyRules_cons]
    refine ih (fun r hr => hrules r (List.mem_cons_of_mem ru hr)) fun hmem => ?_
    rcases applyRule_mem hmem with h | h
    · exact hs h
    · exact hrules ru (List.mem_cons_self ru rest) h

theorem mem_jsTrim {s : List Char} {c : Char} (h : c ∈ jsTrim s) : c ∈ s := by
  unfold jsTrim at h
  rw [List.mem_reverse] at h
  have h2 := (List.dropWhile_sublist jsSpace).mem h
  rw [List.mem_reverse] at h2
  exact (List.dropWhile_sublist jsSpace).mem h2

theorem mem_dropWhile_of_not {p : Char → Bool} {l : List Char} {c : Char}
    (hc : c ∈ l) (hp : p c = false) : c ∈ l.dropWhile p := by
  induction l with
  | nil => simp at hc
  | cons x rest ih =>
    by_cases hx : p x
    · rw [List.dropWhile_cons_of_pos hx]
      rcases List.mem_cons.mp hc with h | h
      · subst h
        rw [hx] at hp
        exact absurd hp (by simp)
      · exact ih h
    · rw [List.dropWhile_cons_of_neg hx]
      exact hc

theorem mem_jsTrim_of_nonspace {s : List Char} {c : Char} (hc : c ∈ s)
    (hns : jsSpace c = false) : c ∈ jsTrim s := by
  unfold jsTrim
  rw [List.mem_reverse]
  refine mem_dropWhile_of_not ?_ hns
  rw [List.mem_reverse]
  exact mem_dropWhile_of_not hc hns

/-- Length of the leading JavaScript-whitespace run. -/
def wsRun : List Char → Nat
  | [] => 0
  | c :: rest => if jsSpace c then wsRun rest + 1 else 0

mutual
/-- Direct model of `/\s+/g → ' '`: every maximal whitespace run becomes
one space. -/
def collapseWs : List Char → List Char
  | [] => []
  | c :: rest => if jsSpace c then ' ' :: wsSkip rest else c :: collapseWs rest

/-- Skip the remainder of a whitespace run, then continue collapsing. -/
def wsSkip : List Char → List Char
  | [] => []
  | c :: rest => if jsSpace c then wsSkip rest else c :: collapseWs rest
end

theorem wsSkip_eq_drop (rest : List Char) :
    wsSkip rest = collapseWs (rest.drop (wsRun rest)) := by
  induction rest with
  | nil => rfl
  | cons c r ih =>
    by_cases h : jsSpace c
    · rw [wsSkip, if_pos h, wsRun, if_pos h, List.drop_succ_cons, ih]
    · rw [wsSkip, if_neg h, wsRun, if_neg h, List.drop_zero, collapseWs, if_neg h]

theorem mall_rsp (ml : Bool) (pos : Nat) (prev : Option Char) (rem : List Char) :
    mall ml rsp pos prev rem =
      match rem with
      | [] => []
      | c :: _ => if jsSpace c then [(1, [])] else [] := by
  rw [show rsp = Regex.cls false [CItem.sp] from rfl, mall_cls]
  cases rem with
  | nil => rfl
  | cons c rest => simp [clsMatch, citemMatch]

theorem none_ne_some0 : ¬ (none : Option Nat) = some 0 := fun h => Option.noConfusion h

/-- The greedy star of `\s` matches, first preference, exactly the leading
whitespace run. -/
theorem mall_wsStar_head (ml : Bool) :
    ∀ (k : Nat) (rem : List Char), rem.length ≤ k → ∀ (pos : Nat) (prev : Option Char),
      (mall ml (.rep rsp 0 none) pos prev rem).head? = some (wsRun rem, []) := by
  intro k
  induction k with
  | zero =>
    intro rem hlen pos prev
    have hrem : rem = [] := by
      cases rem with
      | nil => rfl
      | cons c r => simp at hlen
    subst hrem
    rw [mall_rep, if_neg none_ne_some0]
    simp [mall_rsp, wsRun]
  | succ k ih =>
    intro rem hlen pos prev
    rw [mall_rep, if_neg none_ne_some0]
    cases rem with
    | nil => simp [mall_rsp, wsRun]
    | cons c rest =>
      by_cases h : jsSpace c
      · rw [mall_rsp]
        simp only [h, if_true]
        have hfilter : (([(1, [])] : List (Nat × Caps)).filter fun p =>
            decide (0 < p.1 ∧ p.1 ≤ (c :: rest).length)) = [(1, [])] := by
          simp
        rw [hfilter]
        simp only [List.flatMap_cons, List.flatMap_nil, List.append_nil, if_pos rfl]
        have hinner := ih rest (by simp at hlen; omega) (pos + 1) (stepPrev prev (c :: rest) 1)
        have hdrop : (c :: rest).drop 1 = rest := rfl
        rw [hdrop, show Option.map (fun h : Nat => h - 1) (none : Option Nat)
          = none from rfl]
        cases hm : mall ml (.rep rsp (0 - 1) none) (pos + 1) (stepPrev prev (c :: rest) 1)
            rest with
        | nil =>
          rw [hm] at hinner
          simp at hinner
        | cons q tl =>
          rw [hm] at hinner
          simp only [List.head?_cons, Option.some.injEq] at hinner
          subst hinner
          rw [wsRun, if_pos h]
          simp [Nat.add_comm]
      · rw [mall_rsp]
        simp only [h, if_false]
        simp [wsRun, h]

/-- The `\s+` matcher: no match off whitespace, and the greedy first match
on whitespace is the whole leading run. -/
theorem mall_wsPlus (ml : Bool) (pos : Nat) (prev : Option Char) :
    (∀ (c : Char) (rest : List Char), jsSpace c = false →
      mall ml (rplus rsp) pos prev (c :: rest) = []) ∧
    mall ml (rplus rsp) pos prev [] = [] ∧
    (∀ (c : Char) (rest : List Char), jsSpace c = true →
      (mall ml (rplus rsp) pos prev (c :: rest)).head? =
        some (wsRun (c :: rest), [])) := by
  refine ⟨?_, ?_, ?_⟩
  · intro c rest h
    rw [rplus, mall_rep, if_neg none_ne_some0, mall_rsp]
    simp [h]
  · rw [rplus, mall_rep, if_neg none_ne_some0]
    simp [mall_rsp]
  · intro c rest h
    rw [rplus, mall_rep, if_neg none_ne_some0, mall_rsp]
    simp only [h, if_true]
    have hfilter : (([(1, [])] : List (Nat × Caps)).filter fun p =>
        decide (0 < p.1 ∧ p.1 ≤ (c :: rest).length)) = [(1, [])] := by
      simp
    rw [hfilter]
    simp only [List.flatMap_cons, List.flatMap_nil, List.append_nil,
      if_neg (Nat.one_ne_zero)]
    have hdrop : (c :: rest).drop 1 = rest := rfl
    rw [hdrop, show Option.map (fun h : Nat => h - 1) (none : Option Nat) = none from rfl]
    have hinner := mall_wsStar_head ml rest.length rest (le_refl _) (pos + 1)
      (stepPrev prev (c :: rest) 1)
    cases hm : mall ml (.rep rsp (1 - 1) none) (pos + 1) (stepPrev prev (c :: rest) 1)
        rest with
    | nil =>
      rw [show (1 - 1 : Nat) = 0 from rfl] at hm
      rw [hm] at hinner
      simp at hinner
    | cons q tl =>
      rw [show (1 - 1 : Nat) = 0 from rfl] at hm
      rw [hm] at hinner
      simp only [List.head?_cons, Option.some.injEq] at hinner
      subst hinner
      rw [wsRun, if_pos h]
      simp [Nat.add_comm]

/-- The first `compact` rule is the direct run-collapsing scan. -/
theorem applyRule_wsCollapse (input : List Char) :
    applyRule wsCollapseRule input = collapseWs input := by
  suffices h : ∀ (k : Nat) (rem : List Char), rem.length ≤ k → ∀ (pos : Nat)
      (prev : Option Char),
      gRepGo false (rplus rsp) wsCollapseRule.tmpl input pos prev rem
        = collapseWs rem by
    exact h input.length input (le_refl _) 0 none
  intro k
  induction k using Nat.strong_induction_on with
  | _ k ih =>
    intro rem hlen pos prev
    cases rem with
    | nil =>
      rw [gRepGo_eq_none _ input (firstMatchFrom_nil_none
        (by rw [(mall_wsPlus false pos prev).2.1]; rfl))]
      rfl
    | cons c rest =>
      by_cases h : jsSpace c
      · have hhead := (mall_wsPlus false pos prev).2.2 c rest h
        have hfmf := firstMatchFrom_head hhead
        have hn : wsRun (c :: rest) = wsRun rest + 1 := by rw [wsRun, if_pos h]
        have heq := gRepGo_eq_pos wsCollapseRule.tmpl input hfmf
          (by omega) (show (c :: rest).drop 0 = c :: rest from rfl)
        rw [heq]
        have hnm1 : wsRun (c :: rest) - 1 = wsRun rest := by omega
        rw [hnm1]
        have hlen2 : (rest.drop (wsRun rest)).length ≤ rest.length := by simp
        have hlenr : rest.length < k := by
          simp only [List.length_cons] at hlen
          omega
        rw [ih rest.length hlenr (rest.drop (wsRun rest)) hlen2 _ _]
        rw [collapseWs, if_pos h, wsSkip_eq_drop]
        rfl
      · have hnm : mall false (rplus rsp) pos prev (c :: rest) = [] :=
          (mall_wsPlus false pos prev).1 c rest (by simp [h])
        rw [gRepGo_cons_of_no_match _ input hnm]
        have hlenr : rest.length < k := by
          simp only [List.length_cons] at hlen
          omega
        rw [ih rest.length hlenr rest (le_refl _) _ _]
        rw [collapseWs, if_neg h]

theorem collapseWs_chars (s : List Char) :
    (∀ c ∈ collapseWs s, c = ' ' ∨ jsSpace c = false) ∧
    (∀ c ∈ wsSkip s, c = ' ' ∨ jsSpace c = false) := by
  induction s with
  | nil => exact ⟨by simp [collapseWs], by simp [wsSkip]⟩
  | cons c rest ih =>
    constructor
    · intro x hx
      rw [collapseWs] at hx
      by_cases h : jsSpace c
      · rw [if_pos h] at hx
        rcases List.mem_cons.mp hx with h1 | h1
        · exact Or.inl h1
        · exact ih.2 x h1
      · rw [if_neg h] at hx
        rcases List.mem_cons.mp hx with h1 | h1
        · subst h1
          exact Or.inr (by simpa using h)
        · exact ih.1 x h1
    · intro x hx
      rw [wsSkip] at hx
      by_cases h : jsSpace c
      · rw [if_pos h] at hx
        exact ih.2 x hx
      · rw [if_neg h] at hx
        rcases List.mem_cons.mp hx with h1 | h1
        · subst h1
          exact Or.inr (by simpa using h)
        · exact ih.1 x h1

theorem collapseWs_keeps (s : List Char) :
    (∀ c ∈ s, jsSpace c = false → c ∈ collapseWs s) ∧
    (∀ c ∈ s, jsSpace c = false → c ∈ wsSkip s) := by
  induction s with
  | nil => exact ⟨by simp, by simp⟩
  | cons c rest ih =>
    constructor
    · intro x hx hns
      rw [collapseWs]
      by_cases h : jsSpace c
      · rw [if_pos h]
        rcases List.mem_cons.mp hx with h1 | h1
        · subst h1
          rw [h] at hns
          exact absurd hns (by simp)
        · exact List.mem_cons_of_mem _ (ih.2 x h1 hns)
      · rw [if_neg h]
        rcases List.mem_cons.mp hx with h1 | h1
        · subst h1
          exact List.mem_cons_self _ _
        · exact List.mem_cons_of_mem _ (ih.1 x h1 hns)
    · intro x hx hns
      rw [wsSkip]
      by_cases h : jsSpace c
      · rw [if_pos h]
        rcases List.mem_cons.mp hx with h1 | h1
        · subst h1
          rw [h] at hns
          exact absurd hns (by simp)
        · exact ih.2 x h1 hns
      · rw [if_neg h]
        rcases List.mem_cons.mp hx with h1 | h1
        · subst h1
          exact List.mem_cons_self _ _
        · exact List.mem_cons_of_mem _ (ih.1 x h1 hns)

theorem mall_nlBlank_nil (ml : Bool) (pos : Nat) (prev : Option Char) :
    mall ml nlBlankRule.pat pos prev [] = [] := by
  rw [show nlBlankRule.pat = Regex.seq (rch '\n')
    (Regex.seq (rstar rsp) (Regex.seq (rch '\n') Regex.eps)) from rfl]
  simp [mall_seq, rch, mall_cls]

theorem mall_nlBlank_cons (ml : Bool) (pos : Nat) (prev : Option Char) (c : Char)
    (rest : List Char) (h : ¬ c = '\n') :
    mall ml nlBlankRule.pat pos prev (c :: rest) = [] := by
  rw [show nlBlankRule.pat = Regex.seq (rch '\n')
    (Regex.seq (rstar rsp) (Regex.seq (rch '\n') Regex.eps)) from rfl]
  rw [mall_seq, show rch '\n' = Regex.cls false [CItem.ch '\n'] from rfl, mall_cls]
  simp only [clsMatch, citemMatch, List.any_cons, List.any_nil, Bool.or_false]
  rw [if_neg (by simpa using fun he => h he.symm)]
  rfl

/-- The second `compact` rule does nothing to a text without newlines. -/
theorem applyRule_nlBlank_id {s : List Char} (h : '\n' ∉ s) :
    applyRule nlBlankRule s = s := by
  suffices hall : ∀ (rem : List Char) (pos : Nat) (prev : Option Char), '\n' ∉ rem →
      gRepGo false nlBlankRule.pat nlBlankRule.tmpl s pos prev rem = rem from
    hall s 0 none h
  intro rem
  induction rem with
  | nil =>
    intro pos prev _
    exact gRepGo_eq_none _ s (firstMatchFrom_nil_none
      (by rw [mall_nlBlank_nil]; rfl))
  | cons c rest ih =>
    intro pos prev hmem
    have hc : ¬ c = '\n' := fun he => hmem (he ▸ List.mem_cons_self c rest)
    rw [gRepGo_cons_of_no_match _ s (mall_nlBlank_cons false pos prev c rest hc),
      ih (pos + 1) (some c) fun hm => hmem (List.mem_cons_of_mem c hm)]

theorem splitOnFF_no_ff {s : List Char} (h : '\x0c' ∉ s) : splitOnFF s = [s] := by
  induction s with
  | nil => rfl
  | cons c rest ih =>
    have hc : ¬ c = '\x0c' := fun hc => h (by rw [hc]; exact List.mem_cons_self _ rest)
    rw [splitOnFF, if_neg hc, ih fun hm => h (List.mem_cons_of_mem c hm)]

/-- C10: `compact` first collapses every whitespace run (newlines and form
feeds included) to a single space, so its output contains no newline and
no form feed, and page-splitting the compact output of any text with a
non-whitespace character yields exactly one segment: the whole output. -/
theorem formatText_compact_single_page (T : String) :
    '\n' ∉ (formatText T "compact").data ∧
    '\x0c' ∉ (formatText T "compact").data ∧
    ((∃ c ∈ T.data, jsSpace c = false) →
      splitPages (formatText T "compact") = [formatText T "compact"]) := by
  have hmode : formatText T "compact" = ⟨jsTrim (applyRules compactRules T.data)⟩ := by
    unfold formatText
    rw [if_neg (by decide), if_neg (by decide), if_neg (by decide), if_neg (by decide),
      if_neg (by decide), if_pos rfl]
  have hchain : applyRules compactRules T.data
      = applyRule nlBlankRule (collapseWs T.data) := by
    rw [show compactRules = [wsCollapseRule, nlBlankRule] from rfl, applyRules_cons,
      applyRule_wsCollapse]
    exact applyRules_cons nlBlankRule [] (collapseWs T.data)
  have hnonl : '\n' ∉ collapseWs T.data := by
    intro hmem
    rcases (collapseWs_chars T.data).1 '\n' hmem with h1 | h1
    · exact absurd h1 (by decide)
    · exact absurd h1 (by decide)
  have hid : applyRule nlBlankRule (collapseWs T.data) = collapseWs T.data :=
    applyRule_nlBlank_id hnonl
  have hout : (formatText T "compact").data = jsTrim (collapseWs T.data) := by
    rw [hmode]
    show jsTrim (applyRules compactRules T.data) = _
    rw [hchain, hid]
  refine ⟨?_, ?_, ?_⟩
  · rw [hout]
    exact fun hmem => hnonl (mem_jsTrim hmem)
  · rw [hout]
    intro hmem
    rcases (collapseWs_chars T.data).1 '\x0c' (mem_jsTrim hmem) with h1 | h1
    · exact absurd h1 (by decide)
    · exact absurd h1 (by decide)
  · rintro ⟨c, hc, hns⟩
    have hcmem : c ∈ jsTrim (collapseWs T.data) :=
      mem_jsTrim_of_nonspace ((collapseWs_keeps T.data).1 c hc hns) hns
    have hnoff : '\x0c' ∉ jsTrim (collapseWs T.data) := by
      intro hmem
      rcases (collapseWs_chars T.data).1 '\x0c' (mem_jsTrim hmem) with h1 | h1
      · exact absurd h1 (by decide)
      · exact absurd h1 (by decide)
    rw [splitPages, hout, splitOnFF_no_ff hnoff]
    have hkeep : decide (0 < (jsTrim (jsTrim (collapseWs T.data))).length) = true := by
      rw [decide_eq_true_iff]
      have hin : c ∈ jsTrim (jsTrim (collapseWs T.data)) :=
        mem_jsTrim_of_nonspace hcmem hns
      exact List.length_pos.mpr (List.ne_nil_of_mem hin)
    have hfil : (([jsTrim (collapseWs T.data)] : List (List Char)).filter fun p =>
        decide (0 < (jsTrim p).length)) = [jsTrim (collapseWs T.data)] :=
      List.filter_eq_self.mpr fun a ha => by
        rw [List.mem_singleton] at ha
        rw [ha]
        exact hkeep
    rw [hfil]
    have hstr : jsTrim (applyRules compactRules T.data) = jsTrim (collapseWs T.data) := by
      rw [hchain, hid]
    rw [hmode, hstr]
    rfl

/-- C10 witness at the concrete page-marked input `a`, form feed, `b`. -/
theorem formatText_compact_single_page_witness :
    (∃ c ∈ ("a\x0cb" : String).data, jsSpace c = false) ∧
    splitPages (formatText "a\x0cb" "compact") = [formatText "a\x0cb" "compact"] :=
  ⟨⟨'a', by decide, by decide⟩,
    (formatText_compact_single_page "a\x0cb").2.2 ⟨'a', by decide, by decide⟩⟩

theorem smartTail_no_cr : ∀ ru ∈ smartTail, '\r' ∉ tmplLits ru.tmpl := by decide

theorem structuredTail_no_cr : ∀ ru ∈ structuredTail, '\r' ∉ tmplLits ru.tmpl := by
  decide

set_option maxHeartbeats 2000000 in
theorem visualTail_no_cr : ∀ ru ∈ visualTail, '\r' ∉ tmplLits ru.tmpl := by decide

theorem minimalTail_no_cr : ∀ ru ∈ minimalTail, '\r' ∉ tmplLits ru.tmpl := by decide

theorem formatText_smart_eq (T : String) :
    formatText T "smart" = ⟨applyRules smartRules T.data⟩ := by
  unfold formatText
  rw [if_neg (by decide), if_pos rfl]

theorem formatText_structured_eq (T : String) :
    formatText T "structured" = ⟨jsTrim (applyRules structuredRules T.data)⟩ := by
  unfold formatText
  rw [if_neg (by decide), if_neg (by decide), if_pos rfl]

theorem formatText_visual_eq (T : String) :
    formatText T "visual" = ⟨jsTrim (applyRules visualRules T.data)⟩ := by
  unfold formatText
  rw [if_neg (by decide), if_neg (by decide), if_neg (by decide), if_pos rfl]

theorem formatText_minimal_eq (T : String) :
    formatText T "minimal" = ⟨applyRules minimalRules T.data⟩ := by
  unfold formatText
  rw [if_neg (by decide), if_neg (by decide), if_neg (by decide),
    if_neg (by decide), if_pos rfl]

theorem formatText_compact_eq (T : String) :
    formatText T "compact" = ⟨jsTrim (applyRules compactRules T.data)⟩ := by
  unfold formatText
  rw [if_neg (by decide), if_neg (by decide), if_neg (by decide), if_neg (by decide),
    if_neg (by decide), if_pos rfl]

theorem no_cr_smart (T : String) (hT : loneCRFree T.data = true) :
    '\r' ∉ (formatText T "smart").data := by
  rw [formatText_smart_eq]
  show '\r' ∉ applyRules smartRules T.data
  rw [show smartRules = crlfRule :: smartTail from rfl, applyRules_cons,
    applyRule_crlf]
  exact applyRules_not_mem smartTail_no_cr (crlfToLf_no_cr hT)

theorem mem_of_mem_mk {l : List Char} {c : Char} (h : c ∈ (String.mk l).data) :
    c ∈ l := h

set_option maxHeartbeats 1000000 in
theorem no_cr_structured (T : String) (hT : loneCRFree T.data = true) :
    '\r' ∉ (formatText T "structured").data := by
  intro hmem
  rw [formatText_structured_eq] at hmem
  have h2 := mem_jsTrim (mem_of_mem_mk hmem)
  rw [show structuredRules = crlfRule :: structuredTail from rfl, applyRules_cons,
    applyRule_crlf] at h2
  exact applyRules_not_mem structuredTail_no_cr (crlfToLf_no_cr hT) h2

set_option maxHeartbeats 1000000 in
theorem no_cr_visual (T : String) (hT : loneCRFree T.data = true) :
    '\r' ∉ (formatText T "visual").data := by
  intro hmem
  rw [formatText_visual_eq] at hmem
  have h2 := mem_jsTrim (mem_of_mem_mk hmem)
  rw [show visualRules = crlfRule :: visualTail from rfl, applyRules_cons,
    applyRule_crlf] at h2
  exact applyRules_not_mem visualTail_no_cr (crlfToLf_no_cr hT) h2

theorem no_cr_minimal (T : String) (hT : loneCRFree T.data = true) :
    '\r' ∉ (formatText T "minimal").data := by
  rw [formatText_minimal_eq]
  show '\r' ∉ applyRules minimalRules T.data
  rw [show minimalRules = crlfRule :: minimalTail from rfl, applyRules_cons,
    applyRule_crlf]
  exact applyRules_not_mem minimalTail_no_cr (crlfToLf_no_cr hT)

theorem no_cr_compact (T : String) : '\r' ∉ (formatText T "compact").data := by
  rw [formatText_compact_eq]
  intro hmem
  have h2 := mem_jsTrim hmem
  rw [show compactRules = [wsCollapseRule, nlBlankRule] from rfl, applyRules_cons,
    applyRule_wsCollapse] at h2
  rw [show applyRules [nlBlankRule] (collapseWs T.data)
    = applyRule nlBlankRule (collapseWs T.data) from applyRules_cons nlBlankRule []
      (collapseWs T.data)] at h2
  rcases applyRule_mem h2 with h3 | h3
  · rcases (collapseWs_chars T.data).1 '\r' h3 with h4 | h4
    · exact absurd h4 (by decide)
    · exact absurd h4 (by decide)
  · exact absurd h3 (by decide)

/-- C3 counterexample: in `minimal` mode a lone carriage return survives to
the output, refuting the unconditional no-carriage-return invariant. -/
theorem c3_lone_cr_survives_minimal :
    '\r' ∈ (formatText "a\rb" "minimal").data := by decide

/-- C3 amended: for each of the six documented modes, the output contains
no carriage return provided every carriage return of the input is part of
a `\r\n` pair (line-ending normalization only rewrites the two-character
pair, and no later rule introduces a `\r`). -/
theorem formatText_no_cr (T M : String)
    (hM : M ∈ (["raw", "smart", "structured", "visual", "minimal",
      "compact"] : List String))
    (hT : loneCRFree T.data = true) :
    '\r' ∉ (formatText T M).data := by
  have hM2 : M = "raw" ∨ M = "smart" ∨ M = "structured" ∨ M = "visual" ∨
      M = "minimal" ∨ M = "compact" := by simpa using hM
  rcases hM2 with rfl | rfl | rfl | rfl | rfl | rfl
  · exact no_cr_raw T hT
  · exact no_cr_smart T hT
  · exact no_cr_structured T hT
  · exact no_cr_visual T hT
  · exact no_cr_minimal T hT
  · exact no_cr_compact T

/-- C3 witness: a `\r\n` input in `minimal` mode. -/
theorem formatText_no_cr_witness :
    ("minimal" : String) ∈ (["raw", "smart", "structured", "visual", "minimal",
      "compact"] : List String) ∧
    loneCRFree ("x\r\ny" : String).data = true ∧
    '\r' ∉ (formatText "x\r\ny" "minimal").data :=
  ⟨by decide, by decide, formatText_no_cr "x\r\ny" "minimal" (by decide) (by decide)⟩

/- Line structure of a character list: `text.split('\n')` and the
predicates needed to settle the `minimal`-mode line-break claim. -/

/-- `text.split('\n')` over character lists (empty segments kept, as
JavaScript's split does). -/
def splitNl : List Char → List (List Char)
  | [] => [[]]
  | c :: rest =>
    if c = '\n' then [] :: splitNl rest
    else
      match splitNl rest with
      | l :: ls => (c :: l) :: ls
      | [] => [[c]]

/-- A line is non-blank when some character lies outside the `\s` class. -/
def nonBlankL (l : List Char) : Bool := l.any fun c => !jsSpace c

/-- Length of the first `'\n'`-free segment. -/
def nlIdx : List Char → Nat
  | [] => 0
  | c :: rest => if c = '\n' then 0 else nlIdx rest + 1

theorem splitNl_ne_nil (s : List Char) : splitNl s ≠ [] := by
  cases s with
  | nil => simp [splitNl]
  | cons c rest =>
    rw [splitNl]
    by_cases h : c = '\n'
    · simp [h]
    · cases hs : splitNl rest with
      | nil => simp [h, hs]
      | cons l ls => simp [h, hs]

theorem splitNl_length (s : List Char) :
    (splitNl s).length = s.count '\n' + 1 := by
  induction s with
  | nil => rfl
  | cons c rest ih =>
    rw [splitNl]
    by_cases h : c = '\n'
    · simp [h, List.count_cons, ih]
    · cases hs : splitNl rest with
      | nil => exact absurd hs (splitNl_ne_nil rest)
      | cons l ls =>
        rw [hs] at ih
        simp only [List.length_cons] at ih
        simp [h, hs, List.count_cons, ih, Ne.symm h]

theorem splitNl_head (s : List Char) :
    (splitNl s).head? = some (s.take (nlIdx s)) := by
  induction s with
  | nil => rfl
  | cons c rest ih =>
    rw [splitNl, nlIdx]
    by_cases h : c = '\n'
    · simp [h]
    · cases hs : splitNl rest with
      | nil => exact absurd hs (splitNl_ne_nil rest)
      | cons l ls =>
        rw [hs] at ih
        simp only [List.head?_cons, Option.some.injEq] at ih
        simp [h, hs, List.take_succ_cons, ih]

theorem splitNl_eq_head_cons (s : List Char) :
    splitNl s = s.take (nlIdx s) :: (splitNl s).tail := by
  cases hs : splitNl s with
  | nil => exact absurd hs (splitNl_ne_nil _)
  | cons l ls =>
    have hh := splitNl_head s
    rw [hs] at hh
    simp only [List.head?_cons, Option.some.injEq] at hh
    rw [List.tail_cons, ← hh]

theorem nlIdx_le (s : List Char) : nlIdx s ≤ s.length := by
  induction s with
  | nil => exact le_refl _
  | cons c rest ih =>
    rw [nlIdx]
    by_cases h : c = '\n'
    · simp [h]
    · simp only [if_neg h, List.length_cons]
      omega

theorem nlIdx_drop (s : List Char) :
    s.drop (nlIdx s) = [] ∨ ∃ t, s.drop (nlIdx s) = '\n' :: t := by
  induction s with
  | nil => exact Or.inl rfl
  | cons c rest ih =>
    rw [nlIdx]
    by_cases h : c = '\n'
    · exact Or.inr ⟨rest, by simp [h]⟩
    · rw [if_neg h, List.drop_succ_cons]
      exact ih

theorem nlIdx_take_no_nl (s : List Char) : '\n' ∉ s.take (nlIdx s) := by
  induction s with
  | nil => simp
  | cons c rest ih =>
    rw [nlIdx]
    by_cases h : c = '\n'
    · simp [h]
    · rw [if_neg h, List.take_succ_cons]
      intro hm
      rcases List.mem_cons.mp hm with h1 | h1
      · exact h h1.symm
      · exact ih h1

theorem splitNl_drop (s : List Char) :
    ∀ k, k ≤ nlIdx s →
      splitNl (s.drop k) = (s.take (nlIdx s)).drop k :: (splitNl s).tail := by
  induction s with
  | nil =>
    intro k hk
    have hk0 : k = 0 := Nat.le_zero.mp hk
    subst hk0
    simpa using splitNl_eq_head_cons []
  | cons c rest ih =>
    intro k hk
    cases k with
    | zero => simpa using splitNl_eq_head_cons (c :: rest)
    | succ k =>
      have h : ¬ c = '\n' := by
        intro h
        rw [nlIdx, if_pos h] at hk
        omega
      rw [nlIdx, if_neg h] at hk
      rw [List.drop_succ_cons, ih k (by omega)]
      rw [nlIdx, if_neg h, List.take_succ_cons, List.drop_succ_cons]
      cases hs : splitNl rest with
      | nil => exact absurd hs (splitNl_ne_nil _)
      | cons l ls =>
        rw [splitNl, if_neg h, hs]
        rfl

theorem head_drop_mem_take :
    ∀ (s : List Char) (j m : Nat) (c : Char) (t : List Char),
      j < m → s.drop j = c :: t → c ∈ s.take m := by
  intro s
  induction s with
  | nil =>
    intro j m c t hj hd
    rw [List.drop_nil] at hd
    exact absurd hd (by simp)
  | cons x s2 ih =>
    intro j m c t hj hd
    cases j with
    | zero =>
      rw [List.drop_zero] at hd
      injection hd with h1 h2
      match m, hj with
      | m + 1, _ =>
        rw [List.take_succ_cons, ← h1]
        exact List.mem_cons_self _ _
    | succ j =>
      match m, hj with
      | m + 1, hj =>
        rw [List.drop_succ_cons] at hd
        rw [List.take_succ_cons]
        exact List.mem_cons_of_mem _ (ih j m c t (by omega) hd)

theorem wsRun_lt_nlIdx {s : List Char}
    (h : ∃ x ∈ s.take (nlIdx s), jsSpace x = false) : wsRun s < nlIdx s := by
  induction s with
  | nil => simp at h
  | cons c rest ih =>
    obtain ⟨x, hx, hxs⟩ := h
    by_cases hn : c = '\n'
    · rw [nlIdx, if_pos hn, List.take_zero] at hx
      exact absurd hx (List.not_mem_nil x)
    · rw [nlIdx, if_neg hn] at hx ⊢
      rw [List.take_succ_cons] at hx
      by_cases hcs : jsSpace c
      · rw [wsRun, if_pos hcs]
        rcases List.mem_cons.mp hx with h1 | h1
        · rw [h1, hcs] at hxs
          exact absurd hxs (by simp)
        · have := ih ⟨x, h1, hxs⟩
          omega
      · rw [wsRun, if_neg hcs]
        omega

theorem wsRun_drop_head {s : List Char} {c : Char} {t : List Char}
    (hd : s.drop (wsRun s) = c :: t) : jsSpace c = false := by
  induction s with
  | nil => simp at hd
  | cons x rest ih =>
    by_cases hx : jsSpace x
    · rw [wsRun, if_pos hx, List.drop_succ_cons] at hd
      exact ih hd
    · rw [wsRun, if_neg hx, List.drop_zero] at hd
      injection hd with h1 h2
      rw [← h1]
      simpa using hx

theorem wsRun_add {s : List Char} :
    ∀ m, m ≤ s.length → (∀ x ∈ s.take m, jsSpace x = true) →
      wsRun s = m + wsRun (s.drop m) := by
  induction s with
  | nil =>
    intro m hm _
    have : m = 0 := Nat.le_zero.mp (by simpa using hm)
    subst this
    rfl
  | cons c rest ih =>
    intro m hm hall
    cases m with
    | zero => simp
    | succ m =>
      have hc : jsSpace c = true := hall c (by
        rw [List.take_succ_cons]
        exact List.mem_cons_self _ _)
      rw [wsRun, if_pos hc, List.drop_succ_cons,
        ih m (by simpa using hm) (fun x hx => hall x (by
          rw [List.take_succ_cons]
          exact List.mem_cons_of_mem _ hx))]
      omega

/- The horizontal-whitespace collapse `/[ \t]+/g → ' '` of `minimal` mode,
mirrored by a direct run-collapsing scan. -/

/-- The class `[ \t]`. -/
def isHt (c : Char) : Bool := decide (c = ' ') || decide (c = '\t')

/-- The regex `[ \t]`. -/
def rht : Regex := .cls false [.ch ' ', .ch '\t']

/-- Length of the leading space-and-tab run. -/
def htRun : List Char → Nat
  | [] => 0
  | c :: rest => if isHt c then htRun rest + 1 else 0

mutual
/-- Direct model of `/[ \t]+/g → ' '`: every maximal run of spaces and
tabs becomes one space. -/
def collapseHt : List Char → List Char
  | [] => []
  | c :: rest => if isHt c then ' ' :: htSkip rest else c :: collapseHt rest

/-- Skip the remainder of a space-and-tab run, then continue collapsing. -/
def htSkip : List Char → List Char
  | [] => []
  | c :: rest => if isHt c then htSkip rest else c :: collapseHt rest
end

theorem htSkip_eq_drop (rest : List Char) :
    htSkip rest = collapseHt (rest.drop (htRun rest)) := by
  induction rest with
  | nil => rfl
  | cons c r ih =>
    by_cases h : isHt c
    · rw [htSkip, if_pos h, htRun, if_pos h, List.drop_succ_cons, ih]
    · rw [htSkip, if_neg h, htRun, if_neg h, List.drop_zero, collapseHt, if_neg h]

theorem clsMatch_ht (c : Char) : clsMatch false [.ch ' ', .ch '\t'] c = isHt c := by
  unfold clsMatch citemMatch isHt
  simp only [List.any_cons, List.any_nil, Bool.or_false]
  by_cases h1 : c = ' '
  · subst h1; rfl
  · by_cases h2 : c = '\t'
    · subst h2; rfl
    · simp [h1, h2, Ne.symm h1, Ne.symm h2]

theorem mall_rht (ml : Bool) (pos : Nat) (prev : Option Char) (rem : List Char) :
    mall ml rht pos prev rem =
      match rem with
      | [] => []
      | c :: _ => if isHt c then [(1, [])] else [] := by
  rw [show rht = Regex.cls false [CItem.ch ' ', CItem.ch '\t'] from rfl, mall_cls]
  cases rem with
  | nil => rfl
  | cons c rest => simp only [clsMatch_ht]

/-- The greedy star of `[ \t]` matches, first preference, exactly the
leading space-and-tab run. -/
theorem mall_htStar_head (ml : Bool) :
    ∀ (k : Nat) (rem : List Char), rem.length ≤ k → ∀ (pos : Nat) (prev : Option Char),
      (mall ml (.rep rht 0 none) pos prev rem).head? = some (htRun rem, []) := by
  intro k
  induction k with
  | zero =>
    intro rem hlen pos prev
    have hrem : rem = [] := by
      cases rem with
      | nil => rfl
      | cons c r => simp at hlen
    subst hrem
    rw [mall_rep, if_neg none_ne_some0]
    simp [mall_rht, htRun]
  | succ k ih =>
    intro rem hlen pos prev
    rw [mall_rep, if_neg none_ne_some0]
    cases rem with
    | nil => simp [mall_rht, htRun]
    | cons c rest =>
      by_cases h : isHt c
      · rw [mall_rht]
        simp only [h, if_true]
        have hfilter : (([(1, [])] : List (Nat × Caps)).filter fun p =>
            decide (0 < p.1 ∧ p.1 ≤ (c :: rest).length)) = [(1, [])] := by
          simp
        rw [hfilter]
        simp only [List.flatMap_cons, List.flatMap_nil, List.append_nil, if_pos rfl]
        have hinner := ih rest (by simp at hlen; omega) (pos + 1) (stepPrev prev (c :: rest) 1)
        have hdrop : (c :: rest).drop 1 = rest := rfl
        rw [hdrop, show Option.map (fun h : Nat => h - 1) (none : Option Nat)
          = none from rfl]
        cases hm : mall ml (.rep rht (0 - 1) none) (pos + 1) (stepPrev prev (c :: rest) 1)
            rest with
        | nil =>
          rw [hm] at hinner
          simp at hinner
        | cons q tl =>
          rw [hm] at hinner
          simp only [List.head?_cons, Option.some.injEq] at hinner
          subst hinner
          rw [htRun, if_pos h]
          simp [Nat.add_comm]
      · rw [mall_rht]
        simp only [h, if_false]
        simp [htRun, h]

/-- The `[ \t]+` matcher: no match off the class, and the greedy first
match on it is the whole leading run. -/
theorem mall_htPlus (ml : Bool) (pos : Nat) (prev : Option Char) :
    (∀ (c : Char) (rest : List Char), isHt c = false →
      mall ml (rplus rht) pos prev (c :: rest) = []) ∧
    mall ml (rplus rht) pos prev [] = [] ∧
    (∀ (c : Char) (rest : List Char), isHt c = true →
      (mall ml (rplus rht) pos prev (c :: rest)).head? =
        some (htRun (c :: rest), [])) := by
  refine ⟨?_, ?_, ?_⟩
  · intro c rest h
    rw [rplus, mall_rep, if_neg none_ne_some0, mall_rht]
    simp [h]
  · rw [rplus, mall_rep, if_neg none_ne_some0]
    simp [mall_rht]
  · intro c rest h
    rw [rplus, mall_rep, if_neg none_ne_some0, mall_rht]
    simp only [h, if_true]
    have hfilter : (([(1, [])] : List (Nat × Caps)).filter fun p =>
        decide (0 < p.1 ∧ p.1 ≤ (c :: rest).length)) = [(1, [])] := by
      simp
    rw [hfilter]
    simp only [List.flatMap_cons, List.flatMap_nil, List.append_nil,
      if_neg (Nat.one_ne_zero)]
    have hdrop : (c :: rest).drop 1 = rest := rfl
    rw [hdrop, show Option.map (fun h : Nat => h - 1) (none : Option Nat) = none from rfl]
    have hinner := mall_htStar_head ml rest.length rest (le_refl _) (pos + 1)
      (stepPrev prev (c :: rest) 1)
    cases hm : mall ml (.rep rht (1 - 1) none) (pos + 1) (stepPrev prev (c :: rest) 1)
        rest with
    | nil =>
      rw [show (1 - 1 : Nat) = 0 from rfl] at hm
      rw [hm] at hinner
      simp at hinner
    | cons q tl =>
      rw [show (1 - 1 : Nat) = 0 from rfl] at hm
      rw [hm] at hinner
      simp only [List.head?_cons, Option.some.injEq] at hinner
      subst hinner
      rw [htRun, if_pos h]
      simp [Nat.add_comm]

/-- The second `minimal` rule is the direct run-collapsing scan. -/
theorem applyRule_htCollapse (input : List Char) :
    applyRule htCollapseRule input = collapseHt input := by
  suffices h : ∀ (k : Nat) (rem : List Char), rem.length ≤ k → ∀ (pos : Nat)
      (prev : Option Char),
      gRepGo false (rplus rht) htCollapseRule.tmpl input pos prev rem
        = collapseHt rem by
    exact h input.length input (le_refl _) 0 none
  intro k
  induction k using Nat.strong_induction_on with
  | _ k ih =>
    intro rem hlen pos prev
    cases rem with
    | nil =>
      rw [gRepGo_eq_none _ input (firstMatchFrom_nil_none
        (by rw [(mall_htPlus false pos prev).2.1]; rfl))]
      rfl
    | cons c rest =>
      by_cases h : isHt c
      · have hhead := (mall_htPlus false pos prev).2.2 c rest h
        have hfmf := firstMatchFrom_head hhead
        have hn : htRun (c :: rest) = htRun rest + 1 := by rw [htRun, if_pos h]
        have heq := gRepGo_eq_pos htCollapseRule.tmpl input hfmf
          (by omega) (show (c :: rest).drop 0 = c :: rest from rfl)
        rw [heq]
        have hnm1 : htRun (c :: rest) - 1 = htRun rest := by omega
        rw [hnm1]
        have hlen2 : (rest.drop (htRun rest)).length ≤ rest.length := by simp
        have hlenr : rest.length < k := by
          simp only [List.length_cons] at hlen
          omega
        rw [ih rest.length hlenr (rest.drop (htRun rest)) hlen2 _ _]
        rw [collapseHt, if_pos h, htSkip_eq_drop]
        rfl
      · have hnm : mall false (rplus rht) pos prev (c :: rest) = [] :=
          (mall_htPlus false pos prev).1 c rest (by simp [h])
        rw [gRepGo_cons_of_no_match _ input hnm]
        have hlenr : rest.length < k := by
          simp only [List.length_cons] at hlen
          omega
        rw [ih rest.length hlenr rest (le_refl _) _ _]
        rw [collapseHt, if_neg h]

theorem jsSpace_of_isHt {c : Char} (h : isHt c = true) : jsSpace c = true := by
  unfold isHt at h
  simp only [Bool.or_eq_true, decide_eq_true_eq] at h
  rcases h with rfl | rfl <;> decide

/-- The run collapse never crosses a newline: it maps the `'\n'`-split
line structure linewise. -/
theorem collapseHt_split (s : List Char) :
    splitNl (collapseHt s) = (splitNl s).map collapseHt ∧
    splitNl (htSkip s) =
      (match splitNl s with
       | l :: ls => htSkip l :: ls.map collapseHt
       | [] => []) := by
  induction s with
  | nil => exact ⟨rfl, rfl⟩
  | cons c rest ih =>
    have hP : splitNl (collapseHt (c :: rest)) = (splitNl (c :: rest)).map collapseHt := by
      by_cases hht : isHt c
      · have hcn : ¬ c = '\n' := by
          intro hc
          rw [hc] at hht
          exact absurd hht (by decide)
        rw [collapseHt, if_pos hht]
        cases hs : splitNl rest with
        | nil => exact absurd hs (splitNl_ne_nil _)
        | cons l ls =>
          have hQ := ih.2
          rw [hs] at hQ
          rw [splitNl, if_neg (show ¬ (' ' = '\n') by decide), hQ]
          rw [splitNl, if_neg hcn, hs]
          show (' ' :: htSkip l) :: ls.map collapseHt
            = collapseHt (c :: l) :: ls.map collapseHt
          rw [collapseHt, if_pos hht]
      · rw [collapseHt, if_neg hht]
        by_cases hcn : c = '\n'
        · subst hcn
          rw [splitNl, if_pos rfl, splitNl, if_pos rfl, ih.1]
          rfl
        · cases hs : splitNl rest with
          | nil => exact absurd hs (splitNl_ne_nil _)
          | cons l ls =>
            have hP1 := ih.1
            rw [hs] at hP1
            rw [splitNl, if_neg hcn, hP1]
            rw [splitNl, if_neg hcn, hs]
            show (c :: collapseHt l) :: ls.map collapseHt
              = collapseHt (c :: l) :: ls.map collapseHt
            rw [collapseHt, if_neg hht]
    refine ⟨hP, ?_⟩
    by_cases hht : isHt c
    · have hcn : ¬ c = '\n' := by
        intro hc
        rw [hc] at hht
        exact absurd hht (by decide)
      rw [htSkip, if_pos hht]
      cases hs : splitNl rest with
      | nil => exact absurd hs (splitNl_ne_nil _)
      | cons l ls =>
        have hQ := ih.2
        rw [hs] at hQ
        rw [hQ, splitNl, if_neg hcn, hs]
        show htSkip l :: ls.map collapseHt = htSkip (c :: l) :: ls.map collapseHt
        rw [htSkip, if_pos hht]
    · rw [htSkip, if_neg hht,
        show c :: collapseHt rest = collapseHt (c :: rest) from
          (by rw [collapseHt, if_neg hht]), hP]
      by_cases hcn : c = '\n'
      · subst hcn
        rw [splitNl, if_pos rfl]
        rfl
      · cases hs : splitNl rest with
        | nil => exact absurd hs (splitNl_ne_nil _)
        | cons l ls =>
          rw [splitNl, if_neg hcn, hs]
          show collapseHt (c :: l) :: ls.map collapseHt
            = htSkip (c :: l) :: ls.map collapseHt
          rw [collapseHt, if_neg hht, htSkip, if_neg hht]

theorem collapseHt_keeps (s : List Char) :
    (∀ c ∈ s, jsSpace c = false → c ∈ collapseHt s) ∧
    (∀ c ∈ s, jsSpace c = false → c ∈ htSkip s) := by
  induction s with
  | nil => exact ⟨by simp, by simp⟩
  | cons c rest ih =>
    constructor
    · intro x hx hns
      rw [collapseHt]
      by_cases h : isHt c
      · rw [if_pos h]
        rcases List.mem_cons.mp hx with h1 | h1
        · subst h1
          rw [jsSpace_of_isHt h] at hns
          exact absurd hns (by simp)
        · exact List.mem_cons_of_mem _ (ih.2 x h1 hns)
      · rw [if_neg h]
        rcases List.mem_cons.mp hx with h1 | h1
        · subst h1
          exact List.mem_cons_self _ _
        · exact List.mem_cons_of_mem _ (ih.1 x h1 hns)
    · intro x hx hns
      rw [htSkip]
      by_cases h : isHt c
      · rw [if_pos h]
        rcases List.mem_cons.mp hx with h1 | h1
        · subst h1
          rw [jsSpace_of_isHt h] at hns
          exact absurd hns (by simp)
        · exact ih.2 x h1 hns
      · rw [if_neg h]
        rcases List.mem_cons.mp hx with h1 | h1
        · subst h1
          exact List.mem_cons_self _ _
        · exact List.mem_cons_of_mem _ (ih.1 x h1 hns)

theorem collapseHt_mem (s : List Char) :
    (∀ c ∈ collapseHt s, c = ' ' ∨ c ∈ s) ∧
    (∀ c ∈ htSkip s, c = ' ' ∨ c ∈ s) := by
  induction s with
  | nil => exact ⟨by simp [collapseHt], by simp [htSkip]⟩
  | cons c rest ih =>
    constructor
    · intro x hx
      rw [collapseHt] at hx
      by_cases h : isHt c
      · rw [if_pos h] at hx
        rcases List.mem_cons.mp hx with h1 | h1
        · exact Or.inl h1
        · rcases ih.2 x h1 with h2 | h2
          · exact Or.inl h2
          · exact Or.inr (List.mem_cons_of_mem _ h2)
      · rw [if_neg h] at hx
        rcases List.mem_cons.mp hx with h1 | h1
        · subst h1
          exact Or.inr (List.mem_cons_self _ _)
        · rcases ih.1 x h1 with h2 | h2
          · exact Or.inl h2
          · exact Or.inr (List.mem_cons_of_mem _ h2)
    · intro x hx
      rw [htSkip] at hx
      by_cases h : isHt c
      · rw [if_pos h] at hx
        rcases ih.2 x hx with h2 | h2
        · exact Or.inl h2
        · exact Or.inr (List.mem_cons_of_mem _ h2)
      · rw [if_neg h] at hx
        rcases List.mem_cons.mp hx with h1 | h1
        · subst h1
          exact Or.inr (List.mem_cons_self _ _)
        · rcases ih.1 x h1 with h2 | h2
          · exact Or.inl h2
          · exact Or.inr (List.mem_cons_of_mem _ h2)

theorem collapseHt_count (s : List Char) :
    (collapseHt s).count '\n' = s.count '\n' := by
  have h1 := splitNl_length (collapseHt s)
  have h2 := splitNl_length s
  have h3 := (collapseHt_split s).1
  rw [h3, List.length_map] at h1
  omega

/- Glue facts for the `minimal`-mode pipeline. -/

theorem crlfToLf_id {s : List Char} (h : '\r' ∉ s) : crlfToLf s = s := by
  suffices hk : ∀ (k : Nat) (s : List Char), s.length ≤ k → '\r' ∉ s → crlfToLf s = s from
    hk s.length s (le_refl _) h
  intro k
  induction k with
  | zero =>
    intro s hl _
    cases s with
    | nil => rfl
    | cons c r => simp at hl
  | succ k ih =>
    intro s hl hs
    match s with
    | [] => rfl
    | [c] => rfl
    | c1 :: c2 :: rest =>
      rw [crlfToLf, if_neg (by
        rintro ⟨rfl, rfl⟩
        exact hs (List.mem_cons_self _ _))]
      simp only [List.length_cons] at hl
      rw [ih (c2 :: rest) (by simp; omega) (fun hm => hs (List.mem_cons_of_mem _ hm))]

theorem applyRules_nil (s : List Char) : applyRules [] s = s := rfl

theorem count_data_mk (l : List Char) (a : Char) :
    (String.mk l).data.count a = l.count a := rfl

theorem jsSpace_of_term {c : Char} (h : isLineTerm c = true) : jsSpace c = true := by
  unfold isLineTerm at h
  unfold jsSpace
  simp only [Bool.or_eq_true, Bool.and_eq_true, decide_eq_true_eq] at h ⊢
  omega

/- The full match list of the greedy `\s*` and `\s+`: all run lengths in
decreasing (preference) order. -/

/-- `[(n, []), (n-1, []), ..., (1, [])]`. -/
def descRuns : Nat → List (Nat × Caps)
  | 0 => []
  | n + 1 => (n + 1, ([] : Caps)) :: descRuns n

theorem descRuns_step (n : Nat) :
    ((descRuns n ++ [(0, ([] : Caps))]).map fun q : Nat × Caps =>
        (1 + q.1, ([] : Caps) ++ q.2))
      = descRuns (n + 1) := by
  induction n with
  | zero => rfl
  | succ n ih =>
    rw [descRuns, List.cons_append, List.map_cons, ih]
    have h1 : 1 + (n + 1) = n + 1 + 1 := by omega
    rw [h1]
    rfl

theorem mall_wsStar_full (ml : Bool) :
    ∀ (k : Nat) (rem : List Char), rem.length ≤ k → ∀ (pos : Nat) (prev : Option Char),
      mall ml (.rep rsp 0 none) pos prev rem = descRuns (wsRun rem) ++ [(0, [])] := by
  intro k
  induction k with
  | zero =>
    intro rem hlen pos prev
    have hrem : rem = [] := by
      cases rem with
      | nil => rfl
      | cons c r => simp at hlen
    subst hrem
    rw [mall_rep, if_neg none_ne_some0]
    simp [mall_rsp, wsRun, descRuns]
  | succ k ih =>
    intro rem hlen pos prev
    rw [mall_rep, if_neg none_ne_some0]
    cases rem with
    | nil => simp [mall_rsp, wsRun, descRuns]
    | cons c rest =>
      by_cases h : jsSpace c
      · rw [mall_rsp]
        simp only [h, if_true]
        have hfilter : (([(1, [])] : List (Nat × Caps)).filter fun p =>
            decide (0 < p.1 ∧ p.1 ≤ (c :: rest).length)) = [(1, [])] := by
          simp
        rw [hfilter]
        simp only [List.flatMap_cons, List.flatMap_nil, List.append_nil, if_pos rfl]
        have hdrop : (c :: rest).drop 1 = rest := rfl
        rw [hdrop, show Option.map (fun h : Nat => h - 1) (none : Option Nat)
          = none from rfl]
        rw [show (0 - 1 : Nat) = 0 from rfl]
        rw [ih rest (by simp at hlen; omega) (pos + 1) (stepPrev prev (c :: rest) 1)]
        rw [wsRun, if_pos h]
        rw [← descRuns_step (wsRun rest)]
      · rw [mall_rsp]
        simp only [h, if_false]
        simp [wsRun, h, descRuns]

theorem mall_wsPlus_full (ml : Bool) (pos : Nat) (prev : Option Char) (rem : List Char) :
    mall ml (rplus rsp) pos prev rem = descRuns (wsRun rem) := by
  cases rem with
  | nil =>
    rw [(mall_wsPlus ml pos prev).2.1]
    rfl
  | cons c rest =>
    by_cases h : jsSpace c
    · rw [rplus, mall_rep, if_neg none_ne_some0, mall_rsp]
      simp only [h, if_true]
      have hfilter : (([(1, [])] : List (Nat × Caps)).filter fun p =>
          decide (0 < p.1 ∧ p.1 ≤ (c :: rest).length)) = [(1, [])] := by
        simp
      rw [hfilter]
      simp only [List.flatMap_cons, List.flatMap_nil, List.append_nil,
        if_neg (Nat.one_ne_zero)]
      have hdrop : (c :: rest).drop 1 = rest := rfl
      rw [hdrop, show Option.map (fun h : Nat => h - 1) (none : Option Nat) = none from rfl]
      rw [show (1 - 1 : Nat) = 0 from rfl]
      rw [mall_wsStar_full ml rest.length rest (le_refl _) (pos + 1)
        (stepPrev prev (c :: rest) 1)]
      rw [wsRun, if_pos h]
      rw [← descRuns_step (wsRun rest)]
    · rw [(mall_wsPlus ml pos prev).1 c rest (by simp [h]), wsRun, if_neg h]
      rfl

/- Characterization of the per-line trim pattern `^\s+|\s+$` (multiline). -/

/-- The multiline `$`: end of input or just before a line terminator. -/
def eolCond : List Char → Bool
  | [] => true
  | c :: _ => isLineTerm c

theorem flatMap_pair_id (l : List (Nat × Caps)) :
    (l.flatMap fun p => [(p.1, p.2)]) = l := by
  induction l with
  | nil => rfl
  | cons x xs ih => rw [List.flatMap_cons, ih]; rfl

theorem map_zero_pair_id (l : List (Nat × Caps)) :
    (l.map fun q => (0 + q.1, ([] : Caps) ++ q.2)) = l := by
  induction l with
  | nil => rfl
  | cons x xs ih =>
    rw [List.map_cons, ih]
    simp

theorem mall_seq_eps (ml : Bool) (r : Regex) (pos : Nat) (prev : Option Char)
    (rem : List Char) :
    mall ml (.seq r .eps) pos prev rem = mall ml r pos prev rem := by
  rw [mall_seq]
  have h : ∀ p ∈ mall ml r pos prev rem,
      ((mall ml .eps (pos + p.1) (stepPrev prev rem p.1) (rem.drop p.1)).map
        fun q => (p.1 + q.1, p.2 ++ q.2)) = [(p.1, p.2)] := by
    intro p _
    rw [mall_eps]
    simp
  rw [flatMap_congr_mem h, flatMap_pair_id]

theorem mall_bol_true {pos : Nat} {prev : Option Char} (rem : List Char)
    (hbol : pos = 0 ∨ ∃ t, prev = some t ∧ isLineTerm t = true) :
    mall true .bol pos prev rem = [(0, [])] := by
  rw [mall_bol]
  rcases hbol with h | ⟨t, ht, hterm⟩
  · rw [if_pos h]
  · by_cases hp : pos = 0
    · rw [if_pos hp]
    · rw [if_neg hp, if_pos rfl, ht]
      simp [hterm]

theorem mall_bol_none {pos : Nat} {prev : Option Char} (rem : List Char)
    (hp : pos ≠ 0)
    (hprev : ∀ t, prev = some t → isLineTerm t = false) :
    mall true .bol pos prev rem = [] := by
  rw [mall_bol, if_neg hp, if_pos rfl]
  cases hpv : prev with
  | none => rfl
  | some t => simp [hprev t hpv]

theorem mall_trimAlt1_of_bol (pos : Nat) (prev : Option Char) (rem : List Char)
    (hbol : pos = 0 ∨ ∃ t, prev = some t ∧ isLineTerm t = true) :
    mall true (rcat [.bol, rplus rsp]) pos prev rem = descRuns (wsRun rem) := by
  rw [show rcat [.bol, rplus rsp]
      = Regex.seq .bol (Regex.seq (rplus rsp) .eps) from rfl,
    mall_seq, mall_bol_true rem hbol]
  simp only [List.flatMap_cons, List.flatMap_nil, List.append_nil]
  rw [mall_seq_eps, mall_wsPlus_full, List.drop_zero]
  exact map_zero_pair_id _

theorem mall_trimAlt1_nobol (pos : Nat) (prev : Option Char) (rem : List Char)
    (hp : pos ≠ 0)
    (hprev : ∀ t, prev = some t → isLineTerm t = false) :
    mall true (rcat [.bol, rplus rsp]) pos prev rem = [] := by
  rw [show rcat [.bol, rplus rsp]
      = Regex.seq .bol (Regex.seq (rplus rsp) .eps) from rfl,
    mall_seq, mall_bol_none rem hp hprev]
  rfl

theorem mall_trimAlt1_cases (pos : Nat) (prev : Option Char) (rem : List Char) :
    mall true (rcat [.bol, rplus rsp]) pos prev rem = descRuns (wsRun rem) ∨
    mall true (rcat [.bol, rplus rsp]) pos prev rem = [] := by
  by_cases hp : pos = 0
  · exact Or.inl (mall_trimAlt1_of_bol _ _ _ (Or.inl hp))
  · cases hpv : prev with
    | none =>
      exact Or.inr (mall_trimAlt1_nobol _ _ _ hp
        (fun t ht => Option.noConfusion ht))
    | some t =>
      by_cases hterm : isLineTerm t
      · exact Or.inl (mall_trimAlt1_of_bol _ _ _ (Or.inr ⟨t, rfl, hterm⟩))
      · exact Or.inr (mall_trimAlt1_nobol _ _ _ hp
          (fun t2 ht2 => by
            injection ht2 with h3
            rw [← h3]
            simpa using hterm))

theorem mall_trimAlt2 (pos : Nat) (prev : Option Char) (rem : List Char) :
    mall true (rcat [rplus rsp, .eol]) pos prev rem
      = (descRuns (wsRun rem)).flatMap fun p =>
          if eolCond (rem.drop p.1) then [(p.1, p.2)] else [] := by
  rw [show rcat [rplus rsp, .eol]
      = Regex.seq (rplus rsp) (Regex.seq .eol .eps) from rfl,
    mall_seq, mall_wsPlus_full]
  refine flatMap_congr_mem fun p _ => ?_
  rw [mall_seq_eps, mall_eol]
  cases hd : rem.drop p.1 with
  | nil => simp [eolCond]
  | cons c2 t2 =>
    by_cases ht : isLineTerm c2
    · simp [eolCond, ht]
    · simp [eolCond, ht]

theorem descRuns_filter_nil {g : Nat → Bool} :
    ∀ n : Nat, (∀ k, 1 ≤ k → k ≤ n → g k = false) →
      ((descRuns n).flatMap fun p => if g p.1 then [(p.1, p.2)] else []) = [] := by
  intro n
  induction n with
  | zero => intro _; rfl
  | succ n ih =>
    intro hg
    have hgn : g (n + 1) = false := hg (n + 1) (by omega) (le_refl _)
    simp only [descRuns, List.flatMap_cons, hgn, Bool.false_eq_true, if_false,
      List.nil_append]
    exact ih (fun k h1 h2 => hg k h1 (by omega))

theorem descRuns_filter_head {g : Nat → Bool} {l : Nat} (hl : 1 ≤ l)
    (hg : g l = true) :
    ∀ n, l ≤ n → (∀ k, l < k → k ≤ n → g k = false) →
      ((descRuns n).flatMap fun p => if g p.1 then [(p.1, p.2)] else []).head?
        = some (l, []) := by
  intro n
  induction n with
  | zero => intro h _; omega
  | succ n ih =>
    intro hln hup
    by_cases he : l = n + 1
    · subst he
      simp only [descRuns, List.flatMap_cons, hg, if_true]
      rfl
    · have hgn : g (n + 1) = false := hup (n + 1) (by omega) (le_refl _)
      simp only [descRuns, List.flatMap_cons, hgn, Bool.false_eq_true, if_false,
        List.nil_append]
      exact ih (by omega) (fun k h1 h2 => hup k h1 (by omega))

/- Behaviour of the trim pattern at each scan position, under the
no-blank-line invariant. -/

/-- Under the invariant, the `\s+$` alternative finds no end-of-line
anywhere inside or just after the leading whitespace run. -/
theorem trim_no_eol {t : List Char}
    (hclean : ∀ x ∈ t, isLineTerm x = true → x = '\n')
    (hhead : ∃ x ∈ t.take (nlIdx t), jsSpace x = false) :
    ∀ j, j ≤ wsRun t → eolCond (t.drop j) = false := by
  intro j hj
  have hlt : wsRun t < nlIdx t := wsRun_lt_nlIdx hhead
  have hlen : wsRun t < t.length := lt_of_lt_of_le hlt (nlIdx_le t)
  cases hd : t.drop j with
  | nil =>
    have : t.length ≤ j := by
      have := List.drop_eq_nil_iff.mp hd
      omega
    omega
  | cons c2 t2 =>
    rw [eolCond]
    by_cases hj2 : j < wsRun t
    · have hmem : c2 ∈ t.take (nlIdx t) :=
        head_drop_mem_take t j (nlIdx t) c2 t2 (by omega) hd
      have hc2 : c2 ∈ t := List.take_subset _ _ hmem
      by_cases hterm : isLineTerm c2
      · have h3 := hclean c2 hc2 (by simpa using hterm)
        rw [h3] at hmem
        exact absurd hmem (nlIdx_take_no_nl t)
      · simpa using hterm
    · have hj3 : j = wsRun t := by omega
      rw [hj3] at hd
      have hns := wsRun_drop_head hd
      by_cases hterm : isLineTerm c2
      · rw [jsSpace_of_term (by simpa using hterm)] at hns
        exact absurd hns (by simp)
      · simpa using hterm

/-- The trim pattern has no match at the end of the subject. -/
theorem mall_trim_nil (pos : Nat) (prev : Option Char) :
    mall true trimLinesRule.pat pos prev [] = [] := by
  rw [show trimLinesRule.pat
      = Regex.alt (rcat [.bol, rplus rsp]) (rcat [rplus rsp, .eol]) from rfl,
    mall_alt, mall_trimAlt2]
  rcases mall_trimAlt1_cases pos prev [] with h | h <;> rw [h] <;> rfl

/-- The trim pattern has no match at a non-whitespace character. -/
theorem mall_trim_nonsp (pos : Nat) (prev : Option Char) {c : Char} (rest : List Char)
    (h : jsSpace c = false) :
    mall true trimLinesRule.pat pos prev (c :: rest) = [] := by
  have hws : wsRun (c :: rest) = 0 := by rw [wsRun, if_neg (by simp [h])]
  rw [show trimLinesRule.pat
      = Regex.alt (rcat [.bol, rplus rsp]) (rcat [rplus rsp, .eol]) from rfl,
    mall_alt, mall_trimAlt2, hws]
  rcases mall_trimAlt1_cases pos prev (c :: rest) with h2 | h2 <;>
    rw [h2] <;> try rw [hws]
  · rfl
  · rfl

/-- The trim pattern has no match at a newline that does not start a line,
provided every line after it is non-blank. -/
theorem mall_trim_nl (pos : Nat) {prev : Option Char} (rest : List Char)
    (hp : pos ≠ 0) (hprev : ∀ t2, prev = some t2 → isLineTerm t2 = false)
    (hclean : ∀ x ∈ rest, isLineTerm x = true → x = '\n')
    (hall : ∀ l ∈ splitNl rest, nonBlankL l = true) :
    mall true trimLinesRule.pat pos prev ('\n' :: rest) = [] := by
  rw [show trimLinesRule.pat
      = Regex.alt (rcat [.bol, rplus rsp]) (rcat [rplus rsp, .eol]) from rfl,
    mall_alt,
    mall_trimAlt1_nobol pos prev _ hp hprev,
    mall_trimAlt2, List.nil_append]
  refine @descRuns_filter_nil (fun k => eolCond (List.drop k ('\n' :: rest)))
    (wsRun ('\n' :: rest)) ?_
  intro k h1 h2
  show eolCond (List.drop k ('\n' :: rest)) = false
  have hws : wsRun ('\n' :: rest) = wsRun rest + 1 := by
    rw [wsRun, if_pos (by decide)]
  rw [hws] at h2
  obtain ⟨j, rfl⟩ : ∃ j, k = j + 1 := ⟨k - 1, by omega⟩
  rw [List.drop_succ_cons]
  have hhead : ∃ x ∈ rest.take (nlIdx rest), jsSpace x = false := by
    have hmem : rest.take (nlIdx rest) ∈ splitNl rest := by
      rw [splitNl_eq_head_cons rest]
      exact List.mem_cons_self _ _
    have h4 := hall _ hmem
    rw [nonBlankL] at h4
    obtain ⟨x, hx1, hx2⟩ := List.any_eq_true.mp h4
    exact ⟨x, hx1, by simpa using hx2⟩
  exact trim_no_eol hclean hhead j (by omega)

/-- At a line start on whitespace, the preferred match is the `^\s+`
alternative consuming the whole leading run. -/
theorem mall_trim_bol_sp (pos : Nat) (prev : Option Char) {c : Char} (rest : List Char)
    (hbol : pos = 0 ∨ ∃ t, prev = some t ∧ isLineTerm t = true)
    (hsp : jsSpace c = true) :
    (mall true trimLinesRule.pat pos prev (c :: rest)).head?
      = some (wsRun (c :: rest), []) := by
  rw [show trimLinesRule.pat
      = Regex.alt (rcat [.bol, rplus rsp]) (rcat [rplus rsp, .eol]) from rfl,
    mall_alt, mall_trimAlt1_of_bol _ _ _ hbol]
  have hws : wsRun (c :: rest) = wsRun rest + 1 := by rw [wsRun, if_pos hsp]
  rw [hws, descRuns]
  rfl

/-- Mid-line on whitespace with an all-whitespace line suffix, the
preferred match is `\s+$` consuming exactly that suffix. -/
theorem mall_trim_eol_sp (pos : Nat) {prev : Option Char} {c : Char}
    (rest : List Char)
    (hp : pos ≠ 0) (hprev : ∀ t2, prev = some t2 → isLineTerm t2 = false)
    (hcn : ¬ c = '\n')
    (hclean : ∀ x ∈ c :: rest, isLineTerm x = true → x = '\n')
    (hseg : ∀ x ∈ (c :: rest).take (nlIdx (c :: rest)), jsSpace x = true)
    (htail : ∀ l ∈ (splitNl (c :: rest)).tail, nonBlankL l = true) :
    (mall true trimLinesRule.pat pos prev (c :: rest)).head?
      = some (nlIdx (c :: rest), []) := by
  have hL1 : 1 ≤ nlIdx (c :: rest) := by
    rw [nlIdx, if_neg hcn]
    omega
  have hLlen : nlIdx (c :: rest) ≤ (c :: rest).length := nlIdx_le _
  have hws : wsRun (c :: rest)
      = nlIdx (c :: rest) + wsRun ((c :: rest).drop (nlIdx (c :: rest))) :=
    wsRun_add _ hLlen hseg
  rw [show trimLinesRule.pat
      = Regex.alt (rcat [.bol, rplus rsp]) (rcat [rplus rsp, .eol]) from rfl,
    mall_alt,
    mall_trimAlt1_nobol pos prev _ hp hprev,
    mall_trimAlt2, List.nil_append]
  have hg : eolCond ((c :: rest).drop (nlIdx (c :: rest))) = true := by
    rcases nlIdx_drop (c :: rest) with hdrop | ⟨t2, hdrop⟩
    · rw [hdrop]; rfl
    · rw [hdrop]; rfl
  rcases nlIdx_drop (c :: rest) with hdrop | ⟨t2, hdrop⟩
  · -- the all-whitespace segment runs to the end of the subject
    have hws0 : wsRun ((c :: rest).drop (nlIdx (c :: rest))) = 0 := by
      rw [hdrop]; rfl
    refine @descRuns_filter_head (fun k => eolCond (List.drop k (c :: rest)))
      (nlIdx (c :: rest)) hL1 hg (wsRun (c :: rest)) (by omega) ?_
    intro k hk1 hk2
    exact absurd (lt_of_lt_of_le hk1 hk2) (by omega)
  · -- the segment is followed by a newline, then a non-blank line
    have hws1 : wsRun ((c :: rest).drop (nlIdx (c :: rest))) = wsRun t2 + 1 := by
      rw [hdrop, wsRun, if_pos (by decide)]
    -- the lines after the first are exactly the lines of t2
    have hsplit1 := splitNl_drop (c :: rest) (nlIdx (c :: rest)) (le_refl _)
    have htake : ((c :: rest).take (nlIdx (c :: rest))).drop (nlIdx (c :: rest)) = [] := by
      rw [List.drop_eq_nil_iff]
      have := List.length_take (nlIdx (c :: rest)) (c :: rest)
      omega
    rw [hdrop, htake] at hsplit1
    rw [splitNl, if_pos rfl] at hsplit1
    have hsplit2 : splitNl t2 = (splitNl (c :: rest)).tail := by
      injection hsplit1
    have hclean2 : ∀ x ∈ t2, isLineTerm x = true → x = '\n' := by
      intro x hx
      refine hclean x ?_
      have hx2 : x ∈ '\n' :: t2 := List.mem_cons_of_mem _ hx
      rw [← hdrop] at hx2
      exact List.mem_of_mem_drop hx2
    have hhead2 : ∃ x ∈ t2.take (nlIdx t2), jsSpace x = false := by
      have hmem : t2.take (nlIdx t2) ∈ splitNl t2 := by
        rw [splitNl_eq_head_cons t2]
        exact List.mem_cons_self _ _
      rw [hsplit2] at hmem
      have h4 := htail _ hmem
      rw [nonBlankL] at h4
      obtain ⟨x, hx1, hx2⟩ := List.any_eq_true.mp h4
      exact ⟨x, hx1, by simpa using hx2⟩
    refine @descRuns_filter_head (fun k => eolCond (List.drop k (c :: rest)))
      (nlIdx (c :: rest)) hL1 hg (wsRun (c :: rest)) (by omega) ?_
    intro k hk1 hk2
    show eolCond (List.drop k (c :: rest)) = false
    obtain ⟨j, rfl⟩ : ∃ j, k = nlIdx (c :: rest) + 1 + j :=
      ⟨k - nlIdx (c :: rest) - 1, by omega⟩
    have hdj : (c :: rest).drop (nlIdx (c :: rest) + 1 + j) = t2.drop j := by
      have h5 : (c :: rest).drop (nlIdx (c :: rest) + 1 + j)
          = ((c :: rest).drop (nlIdx (c :: rest))).drop (1 + j) := by
        rw [List.drop_drop]
        congr 1
        omega
      rw [h5, hdrop]
      have h6 : (1 + j) = j + 1 := by omega
      rw [h6, List.drop_succ_cons]
    rw [hdj]
    exact trim_no_eol hclean2 hhead2 j (by omega)

/- The global scan of the trim rule preserves the newline count. -/

theorem mem_of_getLastQ : ∀ {l : List Char} {a : Char}, l.getLast? = some a → a ∈ l := by
  intro l
  induction l with
  | nil => intro a h; exact Option.noConfusion h
  | cons x xs ih =>
    intro a h
    rw [getLastQ_cons] at h
    cases hx : xs.getLast? with
    | none =>
      rw [hx] at h
      injection h with h1
      rw [← h1]
      exact List.mem_cons_self _ _
    | some y =>
      rw [hx] at h
      injection h with h1
      exact List.mem_cons_of_mem _ (ih (by rw [hx, h1]))

theorem take_sub_nlIdx {s : List Char} {n : Nat} (hn : n ≤ nlIdx s) {x : Char}
    (hx : x ∈ s.take n) : x ∈ s.take (nlIdx s) := by
  have h5 : s.take n = (s.take (nlIdx s)).take n := by
    rw [List.take_take]
    congr 1
    omega
  rw [h5] at hx
  exact List.take_subset _ _ hx

theorem take_no_term {s : List Char} {n : Nat}
    (hn : n ≤ nlIdx s)
    (hclean : ∀ x ∈ s, isLineTerm x = true → x = '\n') :
    ∀ x ∈ s.take n, isLineTerm x = false := by
  intro x hx
  have hx2 : x ∈ s.take (nlIdx s) := take_sub_nlIdx hn hx
  cases hterm : isLineTerm x with
  | false => rfl
  | true =>
    have h6 := hclean x (List.take_subset _ _ hx2) hterm
    rw [h6] at hx2
    exact absurd hx2 (nlIdx_take_no_nl s)

theorem take_no_nl {s : List Char} {n : Nat} (hn : n ≤ nlIdx s) :
    '\n' ∉ s.take n :=
  fun hm => absurd (take_sub_nlIdx hn hm) (nlIdx_take_no_nl s)

theorem stepPrev_no_term {prev : Option Char} {rem : List Char} {n : Nat}
    (hn : n ≠ 0)
    (hmem : ∀ x ∈ rem.take n, isLineTerm x = false)
    (hprev : ∀ t2, prev = some t2 → isLineTerm t2 = false) :
    ∀ t2, stepPrev prev rem n = some t2 → isLineTerm t2 = false := by
  intro t2 ht2
  rw [stepPrev, if_neg hn] at ht2
  cases hg : (rem.take n).getLast? with
  | none =>
    rw [hg] at ht2
    exact hprev t2 ht2
  | some g =>
    rw [hg] at ht2
    injection ht2 with h1
    rw [← h1]
    exact hmem g (mem_of_getLastQ hg)

theorem stepPrev_no_term2 {prev : Option Char} {rem : List Char} {n : Nat}
    (hn : n ≠ 0) (hne : rem.take n ≠ [])
    (hmem : ∀ x ∈ rem.take n, isLineTerm x = false) :
    ∀ t2, stepPrev prev rem n = some t2 → isLineTerm t2 = false := by
  intro t2 ht2
  rw [stepPrev, if_neg hn] at ht2
  cases hg : (rem.take n).getLast? with
  | none =>
    rw [List.getLast?_eq_none_iff] at hg
    exact absurd hg hne
  | some g =>
    rw [hg] at ht2
    injection ht2 with h1
    rw [← h1]
    exact hmem g (mem_of_getLastQ hg)

theorem tail_lines_drop {s : List Char} {n : Nat} (hn : n ≤ nlIdx s)
    (htail : ∀ l ∈ (splitNl s).tail, nonBlankL l = true) :
    ∀ l ∈ (splitNl (s.drop n)).tail, nonBlankL l = true := by
  intro l hl
  rw [splitNl_drop s n hn, List.tail_cons] at hl
  exact htail l hl

theorem tail_cons_nonnl {c : Char} (rest : List Char) (hc : ¬ c = '\n') :
    (splitNl (c :: rest)).tail = (splitNl rest).tail := by
  rw [splitNl, if_neg hc]
  cases hs : splitNl rest with
  | nil => exact absurd hs (splitNl_ne_nil _)
  | cons l ls => rfl

theorem head_nonblank_of_bol {s : List Char}
    (h : ∀ l ∈ splitNl s, nonBlankL l = true) :
    ∃ x ∈ s.take (nlIdx s), jsSpace x = false := by
  have hmem : s.take (nlIdx s) ∈ splitNl s := by
    rw [splitNl_eq_head_cons s]
    exact List.mem_cons_self _ _
  have h4 := h _ hmem
  rw [nonBlankL] at h4
  obtain ⟨x, hx1, hx2⟩ := List.any_eq_true.mp h4
  exact ⟨x, hx1, by simpa using hx2⟩

set_option maxHeartbeats 1000000 in
/-- Under the invariant — only `'\n'` line terminators, every complete
line non-blank, and at a line start the current line non-blank — the
multiline trim scan deletes only non-newline whitespace, so the newline
count of its output equals that of the remaining subject. -/
theorem trimLines_count (input : List Char) :
    ∀ (k : Nat) (rem : List Char), rem.length ≤ k → ∀ (pos : Nat) (prev : Option Char),
      (∀ x ∈ rem, isLineTerm x = true → x = '\n') →
      (∀ l ∈ (splitNl rem).tail, nonBlankL l = true) →
      ((pos = 0 ∨ ∃ t, prev = some t ∧ isLineTerm t = true) →
        ∀ l ∈ splitNl rem, nonBlankL l = true) →
      (gRepGo true trimLinesRule.pat trimLinesRule.tmpl input pos prev rem).count '\n'
        = rem.count '\n' := by
  intro k
  induction k using Nat.strong_induction_on with
  | _ k ih =>
    intro rem hlen pos prev hclean htail hbol
    cases rem with
    | nil =>
      rw [gRepGo_eq_none _ input (firstMatchFrom_nil_none
        (by rw [mall_trim_nil pos prev]; rfl))]
    | cons c rest =>
      have hlenr : rest.length < k := by
        simp only [List.length_cons] at hlen
        omega
      have hcleanr : ∀ x ∈ rest, isLineTerm x = true → x = '\n' :=
        fun x hx => hclean x (List.mem_cons_of_mem _ hx)
      by_cases hsp : jsSpace c
      · by_cases hcn : c = '\n'
        · subst hcn
          have hnb : ¬ (pos = 0 ∨ ∃ t, prev = some t ∧ isLineTerm t = true) := by
            intro hb
            have h4 := hbol hb [] (by
              rw [splitNl, if_pos rfl]
              exact List.mem_cons_self _ _)
            exact absurd h4 (by decide)
          have hp : pos ≠ 0 := fun h => hnb (Or.inl h)
          have hprev : ∀ t2, prev = some t2 → isLineTerm t2 = false := by
            intro t2 ht2
            cases hx : isLineTerm t2 with
            | false => rfl
            | true => exact absurd (Or.inr ⟨t2, ht2, hx⟩) hnb
          have hall : ∀ l ∈ splitNl rest, nonBlankL l = true := by
            intro l hl
            refine htail l ?_
            rw [splitNl, if_pos rfl, List.tail_cons]
            exact hl
          rw [gRepGo_cons_of_no_match _ input
            (mall_trim_nl pos rest hp hprev hcleanr hall)]
          rw [List.count_cons, List.count_cons,
            ih rest.length hlenr rest (le_refl _) (pos + 1) (some '\n') hcleanr
              (fun l hl => hall l (List.mem_of_mem_tail hl))
              (fun _ => hall)]
        · by_cases hseg : ∀ x ∈ (c :: rest).take (nlIdx (c :: rest)), jsSpace x = true
          · -- all-whitespace line suffix: the `\s+$` match eats it, newline kept
            have hnb : ¬ (pos = 0 ∨ ∃ t, prev = some t ∧ isLineTerm t = true) := by
              intro hb
              obtain ⟨x, hx1, hx2⟩ := head_nonblank_of_bol (hbol hb)
              rw [hseg x hx1] at hx2
              exact absurd hx2 (by decide)
            have hp : pos ≠ 0 := fun h => hnb (Or.inl h)
            have hprev : ∀ t2, prev = some t2 → isLineTerm t2 = false := by
              intro t2 ht2
              cases hx : isLineTerm t2 with
              | false => rfl
              | true => exact absurd (Or.inr ⟨t2, ht2, hx⟩) hnb
            have hL0 : nlIdx (c :: rest) ≠ 0 := by
              rw [nlIdx, if_neg hcn]
              omega
            have hmall := mall_trim_eol_sp pos rest hp hprev hcn hclean hseg htail
            have hfmf := firstMatchFrom_head hmall
            have heq := gRepGo_eq_pos trimLinesRule.tmpl input hfmf
              hL0 (show (c :: rest).drop 0 = c :: rest from rfl)
            rw [heq, show (c :: rest).take 0 = [] from rfl,
              show instTmpl input (pos + 0) (pos + 0 + nlIdx (c :: rest)) []
                trimLinesRule.tmpl = [] from rfl,
              List.nil_append, List.nil_append]
            have hdropL : rest.drop (nlIdx (c :: rest) - 1)
                = (c :: rest).drop (nlIdx (c :: rest)) := by
              obtain ⟨m, hm⟩ : ∃ m, nlIdx (c :: rest) = m + 1 :=
                ⟨nlIdx (c :: rest) - 1, by omega⟩
              rw [hm]
              simp
            rw [hdropL]
            have hlen2 : ((c :: rest).drop (nlIdx (c :: rest))).length < k := by
              have h7 := List.length_drop (nlIdx (c :: rest)) (c :: rest)
              simp only [List.length_cons] at hlen h7 ⊢
              omega
            have hprev2 : ∀ t2,
                stepPrev prev (c :: rest) (0 + nlIdx (c :: rest)) = some t2 →
                isLineTerm t2 = false := by
              refine stepPrev_no_term (by omega) ?_ hprev
              rw [Nat.zero_add]
              exact take_no_term (le_refl _) hclean
            rw [ih ((c :: rest).drop (nlIdx (c :: rest))).length hlen2 _ (le_refl _)
              (pos + 0 + nlIdx (c :: rest))
              (stepPrev prev (c :: rest) (0 + nlIdx (c :: rest)))
              (fun x hx => hclean x (List.mem_of_mem_drop hx))
              (tail_lines_drop (le_refl _) htail)
              (fun hb => by
                rcases hb with h7 | ⟨t2, ht2, hterm2⟩
                · exact absurd h7 (by omega)
                · rw [hprev2 t2 ht2] at hterm2
                  exact absurd hterm2 (by simp))]
            conv_rhs => rw [← List.take_append_drop (nlIdx (c :: rest)) (c :: rest)]
            rw [List.count_append,
              List.count_eq_zero.mpr (take_no_nl (le_refl _))]
            omega
          · -- the line still has content ahead
            have hseg2 : ∃ x ∈ (c :: rest).take (nlIdx (c :: rest)), jsSpace x = false := by
              push_neg at hseg
              obtain ⟨x, hx1, hx2⟩ := hseg
              exact ⟨x, hx1, by simpa using hx2⟩
            by_cases hb : pos = 0 ∨ ∃ t, prev = some t ∧ isLineTerm t = true
            · -- line start: `^\s+` eats the leading run inside the line
              have hmall := mall_trim_bol_sp pos prev rest hb hsp
              have hfmf := firstMatchFrom_head hmall
              have hw1 : wsRun (c :: rest) = wsRun rest + 1 := by
                rw [wsRun, if_pos hsp]
              have hWlt : wsRun (c :: rest) < nlIdx (c :: rest) :=
                wsRun_lt_nlIdx (head_nonblank_of_bol (hbol hb))
              have heq := gRepGo_eq_pos trimLinesRule.tmpl input hfmf
                (by omega) (show (c :: rest).drop 0 = c :: rest from rfl)
              rw [heq, show (c :: rest).take 0 = [] from rfl,
                show instTmpl input (pos + 0) (pos + 0 + wsRun (c :: rest)) []
                  trimLinesRule.tmpl = [] from rfl,
                List.nil_append, List.nil_append]
              have hdropW : rest.drop (wsRun (c :: rest) - 1)
                  = (c :: rest).drop (wsRun (c :: rest)) := by
                rw [hw1]
                simp
              rw [hdropW]
              have hlen2 : ((c :: rest).drop (wsRun (c :: rest))).length < k := by
                have h7 := List.length_drop (wsRun (c :: rest)) (c :: rest)
                simp only [List.length_cons] at hlen h7 ⊢
                omega
              have hprev2 : ∀ t2,
                  stepPrev prev (c :: rest) (0 + wsRun (c :: rest)) = some t2 →
                  isLineTerm t2 = false := by
                refine stepPrev_no_term2 (by omega) ?_ ?_
                · rw [Nat.zero_add, hw1, List.take_succ_cons]
                  exact List.cons_ne_nil _ _
                · rw [Nat.zero_add]
                  exact take_no_term (by omega) hclean
              rw [ih ((c :: rest).drop (wsRun (c :: rest))).length hlen2 _ (le_refl _)
                (pos + 0 + wsRun (c :: rest))
                (stepPrev prev (c :: rest) (0 + wsRun (c :: rest)))
                (fun x hx => hclean x (List.mem_of_mem_drop hx))
                (tail_lines_drop (by omega) htail)
                (fun hb2 => by
                  rcases hb2 with h7 | ⟨t2, ht2, hterm2⟩
                  · exact absurd h7 (by omega)
                  · rw [hprev2 t2 ht2] at hterm2
                    exact absurd hterm2 (by simp))]
              conv_rhs => rw [← List.take_append_drop (wsRun (c :: rest)) (c :: rest)]
              rw [List.count_append,
                List.count_eq_zero.mpr (take_no_nl (by omega))]
              omega
            · -- mid-line whitespace with content ahead: no match at all
              have hp : pos ≠ 0 := fun h => hb (Or.inl h)
              have hprev : ∀ t2, prev = some t2 → isLineTerm t2 = false := by
                intro t2 ht2
                cases hx : isLineTerm t2 with
                | false => rfl
                | true => exact absurd (Or.inr ⟨t2, ht2, hx⟩) hb
              have hnomatch : mall true trimLinesRule.pat pos prev (c :: rest) = [] := by
                rw [show trimLinesRule.pat
                    = Regex.alt (rcat [.bol, rplus rsp]) (rcat [rplus rsp, .eol])
                    from rfl,
                  mall_alt, mall_trimAlt1_nobol pos prev _ hp hprev,
                  mall_trimAlt2, List.nil_append]
                refine @descRuns_filter_nil (fun k2 => eolCond (List.drop k2 (c :: rest)))
                  (wsRun (c :: rest)) ?_
                intro k2 h1 h2
                show eolCond (List.drop k2 (c :: rest)) = false
                exact trim_no_eol hclean hseg2 k2 h2
              rw [gRepGo_cons_of_no_match _ input hnomatch]
              rw [List.count_cons, List.count_cons,
                ih rest.length hlenr rest (le_refl _) (pos + 1) (some c) hcleanr
                  (fun l hl => htail l (by
                    rw [tail_cons_nonnl rest hcn]
                    exact hl))
                  (fun hb2 => by
                    rcases hb2 with h7 | ⟨t2, ht2, hterm2⟩
                    · exact absurd h7 (by omega)
                    · injection ht2 with h8
                      rw [← h8] at hterm2
                      rw [hclean c (List.mem_cons_self _ _) hterm2] at hcn
                      exact absurd rfl hcn)]
      · -- non-whitespace head: no match
        have hcn : ¬ c = '\n' := by
          intro h
          rw [h] at hsp
          exact hsp (by decide)
        rw [gRepGo_cons_of_no_match _ input
          (mall_trim_nonsp pos prev rest (by
            simp at hsp
            exact hsp))]
        rw [List.count_cons, List.count_cons,
          ih rest.length hlenr rest (le_refl _) (pos + 1) (some c) hcleanr
            (fun l hl => htail l (by
              rw [tail_cons_nonnl rest hcn]
              exact hl))
            (fun hb2 => by
              rcases hb2 with h7 | ⟨t2, ht2, hterm2⟩
              · exact absurd h7 (by omega)
              · injection ht2 with h8
                rw [← h8] at hterm2
                exact absurd (jsSpace_of_term hterm2) hsp)]

/- Assembly of the `minimal`-mode newline-preservation theorem. -/

theorem applyRule_trimLines_count {s : List Char}
    (hclean : ∀ x ∈ s, isLineTerm x = true → x = '\n')
    (hnb : ∀ l ∈ splitNl s, nonBlankL l = true) :
    (applyRule trimLinesRule s).count '\n' = s.count '\n' := by
  show (gRepGo true trimLinesRule.pat trimLinesRule.tmpl s 0 none s).count '\n'
    = s.count '\n'
  exact trimLines_count s s.length s (le_refl _) 0 none hclean
    (fun l hl => hnb l (List.mem_of_mem_tail hl)) (fun _ => hnb)

theorem collapseHt_clean {s : List Char}
    (h : ∀ x ∈ s, isLineTerm x = true → x = '\n') :
    ∀ x ∈ collapseHt s, isLineTerm x = true → x = '\n' := by
  intro x hx hterm
  rcases (collapseHt_mem s).1 x hx with h1 | h1
  · rw [h1] at hterm
    exact absurd hterm (by decide)
  · exact h x h1 hterm

theorem collapseHt_nonblank {s : List Char}
    (h : ∀ l ∈ splitNl s, nonBlankL l = true) :
    ∀ l ∈ splitNl (collapseHt s), nonBlankL l = true := by
  intro l hl
  rw [(collapseHt_split s).1] at hl
  obtain ⟨l0, hl0, rfl⟩ := List.mem_map.mp hl
  have h4 := h l0 hl0
  rw [nonBlankL] at h4 ⊢
  obtain ⟨x, hx1, hx2⟩ := List.any_eq_true.mp h4
  refine List.any_eq_true.mpr ⟨x, ?_, hx2⟩
  exact (collapseHt_keeps l0).1 x hx1 (by simpa using hx2)

/-- C2 counterexample: `minimal` mode does NOT keep every line break of the
normalized input — a blank line is deleted together with both of its
newlines, because `\s` matches `\n` in the per-line trim
`/^\s+|\s+$/gm`. -/
theorem c2_blank_line_not_kept :
    (formatText "a\n\nb" "minimal").data.count '\n'
      ≠ (crlfToLf ("a\n\nb" : String).data).count '\n' := by decide

/-- C2 amended: `minimal` mode keeps the line breaks of the input provided
the only line terminators are `'\n'` and no line is blank (then the
per-line trim only deletes horizontal whitespace inside lines): the
newline count of the output equals that of the input. -/
theorem formatText_minimal_keeps_newlines (T : String)
    (hterm : ∀ c ∈ T.data, isLineTerm c = true → c = '\n')
    (hnb : ∀ l ∈ splitNl T.data, nonBlankL l = true) :
    (formatText T "minimal").data.count '\n' = T.data.count '\n' := by
  have hcr : '\r' ∉ T.data := by
    intro hm
    have h2 := hterm '\r' hm (by decide)
    exact absurd h2 (by decide)
  rw [formatText_minimal_eq, count_data_mk]
  rw [show minimalRules = [crlfRule, htCollapseRule, trimLinesRule] from rfl,
    applyRules_cons, applyRule_crlf, crlfToLf_id hcr,
    applyRules_cons, applyRule_htCollapse,
    applyRules_cons, applyRules_nil]
  rw [applyRule_trimLines_count (collapseHt_clean hterm) (collapseHt_nonblank hnb),
    collapseHt_count]

/-- C2 witness: a two-line input with inner whitespace, at the theorem's
hypotheses. -/
theorem formatText_minimal_keeps_newlines_witness :
    (∀ c ∈ ("ab\n cd" : String).data, isLineTerm c = true → c = '\n') ∧
    (∀ l ∈ splitNl ("ab\n cd" : String).data, nonBlankL l = true) ∧
    (formatText "ab\n cd" "minimal").data.count '\n'
      = ("ab\n cd" : String).data.count '\n' :=
  ⟨by decide, by decide,
    formatText_minimal_keeps_newlines "ab\n cd" (by decide) (by decide)⟩

end PdfParse
